import Mathlib

/-!
# Verification of the mini-lb backend pool, schedulers, statistics and metrics

This file gives a shallow embedding, in Lean 4, of the core of the `mini-lb`
HTTP load balancer (files `backend_pool.py`, `core/scheduler.py`,
`core/scheduler_impl.py`, `core/metrics.py`) and proves or refutes the frozen
claims about it.

Modelling conventions:

* Python `dict[str, V]` (insertion ordered, unique keys) is an association
  list `List (String × V)`; `alistGet`/`alistSet`/`alistRemove`/`alistUpdate`
  mirror `d[k]`, `d[k] = v`, `d.pop(k, None)` and in-place mutation of the
  stored object.
* The mutable `Backend` objects are kept in the pool store and addressed by
  their dict key; the scheduler's configured view holds keys into that store,
  which models Python object references (every backend the pool creates is
  stored under its own url, and every rebuild re-reads the current objects).
* Python `float` timestamps, latencies and ratios are modelled as exact `ℚ`;
  `int` is `Int`, non-negative sizes are `Nat`.
* The dataclass `Backend` in `core/scheduler.py` defines only `url`, `weight`,
  `active_connections`, `healthy`.  The attribute `total_requests`, read by
  `BackendPool.release` and `LeastRequestsScheduler`, is never defined nor
  initialised anywhere; a Python instance attribute that may or may not have
  been set dynamically is modelled as an `Option Int` that starts as `none`
  (reading `none` is an `AttributeError`).
* Exceptions are modelled with `Except String` (the message names the Python
  exception); mutations performed before a raise are kept in the returned
  state, as in Python.
* Generator-based schedulers (`__iter__` with `yield`) are modelled by an
  explicit cursor / per-step recomputation, exactly following the generator
  bodies; `StopIteration` of an exhausted generator is `StepResult.stopped`.
-/

namespace MiniLb

/-- The `Backend` dataclass of `core/scheduler.py` (fields `url`, `weight`,
`active_connections`, `healthy` with defaults `1`, `0`, `True`), extended with
the dynamic attribute `total_requests` that the code reads and writes but the
dataclass never declares: `none` means the attribute has never been set. -/
structure Backend where
  url : String
  weight : Int := 1
  active_connections : Int := 0
  healthy : Bool := true
  total_requests : Option Int := none
deriving DecidableEq

/-! ## Association lists: the model of Python `dict` -/

/-- `d.get(k)` / `d[k]` on an insertion-ordered dict. -/
def alistGet {ν : Type} (l : List (String × ν)) (k : String) : Option ν :=
  match l with
  | [] => none
  | p :: rest => if p.1 = k then some p.2 else alistGet rest k

/-- `d[k] = v`: update in place if the key exists, else append. -/
def alistSet {ν : Type} (l : List (String × ν)) (k : String) (v : ν) :
    List (String × ν) :=
  match l with
  | [] => [(k, v)]
  | p :: rest => if p.1 = k then (k, v) :: rest else p :: alistSet rest k v

/-- `d.pop(k, None)`. -/
def alistRemove {ν : Type} (l : List (String × ν)) (k : String) :
    List (String × ν) :=
  l.filter (fun p => p.1 ≠ k)

/-- Mutating the object stored under key `k` in place. -/
def alistUpdate {ν : Type} (l : List (String × ν)) (k : String) (f : ν → ν) :
    List (String × ν) :=
  l.map (fun p => if p.1 = k then (p.1, f p.2) else p)

/-! ## Code-point string order

Python compares strings — and tuples of strings — lexicographically by
Unicode code point.  Lean's built-in `String` order is not reducible by the
kernel, so the same order is defined here directly on the character lists. -/

/-- Strict code-point lexicographic order on character lists. -/
def charListLt : List Char → List Char → Bool
  | [], [] => false
  | [], _ :: _ => true
  | _ :: _, [] => false
  | a :: as, b :: bs =>
    if a.toNat < b.toNat then true
    else if a.toNat = b.toNat then charListLt as bs
    else false

/-- Reflexive code-point lexicographic order on character lists. -/
def charListLe : List Char → List Char → Bool
  | [], _ => true
  | _ :: _, [] => false
  | a :: as, b :: bs =>
    if a.toNat < b.toNat then true
    else if a.toNat = b.toNat then charListLe as bs
    else false

/-- Python `a < b` on strings. -/
def strLtB (a b : String) : Bool := charListLt a.data b.data

/-- Python `a <= b` on strings. -/
def strLeB (a b : String) : Bool := charListLe a.data b.data

theorem charToNat_inj {a b : Char} (h : a.toNat = b.toNat) : a = b := by
  have hh := Char.ofNat_toNat a
  rw [h, Char.ofNat_toNat] at hh
  exact hh.symm

theorem charListLe_total : ∀ a b : List Char,
    charListLe a b = true ∨ charListLe b a = true
  | [], _ => Or.inl rfl
  | _ :: _, [] => Or.inr rfl
  | a :: as, b :: bs => by
    rcases Nat.lt_trichotomy a.toNat b.toNat with h | h | h
    · left
      simp only [charListLe]
      rw [if_pos h]
    · rcases charListLe_total as bs with ht | ht
      · left
        simp only [charListLe]
        rw [if_neg (by omega), if_pos h]
        exact ht
      · right
        simp only [charListLe]
        rw [if_neg (by omega), if_pos h.symm]
        exact ht
    · right
      simp only [charListLe]
      rw [if_pos h]

theorem charListLe_trans : ∀ a b c : List Char,
    charListLe a b = true → charListLe b c = true → charListLe a c = true
  | [], _, _, _, _ => rfl
  | _ :: _, [], _, hab, _ => by simp [charListLe] at hab
  | _ :: _, _ :: _, [], _, hbc => by simp [charListLe] at hbc
  | a :: as, b :: bs, c :: cs, hab, hbc => by
    simp only [charListLe] at hab hbc ⊢
    by_cases h1 : a.toNat < b.toNat
    · by_cases h2 : b.toNat < c.toNat
      · rw [if_pos (by omega)]
      · rw [if_neg h2] at hbc
        by_cases h3 : b.toNat = c.toNat
        · rw [if_pos (by omega)]
        · rw [if_neg h3] at hbc
          exact absurd hbc (by simp)
    · rw [if_neg h1] at hab
      by_cases h4 : a.toNat = b.toNat
      · rw [if_pos h4] at hab
        by_cases h2 : b.toNat < c.toNat
        · rw [if_pos (by omega)]
        · rw [if_neg h2] at hbc
          by_cases h3 : b.toNat = c.toNat
          · rw [if_pos h3] at hbc
            rw [if_neg (by omega), if_pos (by omega)]
            exact charListLe_trans as bs cs hab hbc
          · rw [if_neg h3] at hbc
            exact absurd hbc (by simp)
      · rw [if_neg h4] at hab
        exact absurd hab (by simp)

theorem charListLe_antisymm : ∀ a b : List Char,
    charListLe a b = true → charListLe b a = true → a = b
  | [], [], _, _ => rfl
  | [], _ :: _, _, hba => by simp [charListLe] at hba
  | _ :: _, [], hab, _ => by simp [charListLe] at hab
  | a :: as, b :: bs, hab, hba => by
    simp only [charListLe] at hab hba
    by_cases h1 : a.toNat < b.toNat
    · rw [if_neg (by omega), if_neg (by omega)] at hba
      exact absurd hba (by simp)
    · by_cases h2 : a.toNat = b.toNat
      · rw [if_neg h1, if_pos h2] at hab
        rw [if_neg (by omega), if_pos h2.symm] at hba
        rw [charToNat_inj h2, charListLe_antisymm as bs hab hba]
      · rw [if_neg h1, if_neg h2] at hab
        exact absurd hab (by simp)

theorem strLeB_total (a b : String) : strLeB a b = true ∨ strLeB b a = true :=
  charListLe_total a.data b.data

theorem strLeB_trans {a b c : String} (h1 : strLeB a b = true)
    (h2 : strLeB b c = true) : strLeB a c = true :=
  charListLe_trans a.data b.data c.data h1 h2

theorem strLeB_antisymm {a b : String} (h1 : strLeB a b = true)
    (h2 : strLeB b a = true) : a = b :=
  String.ext (charListLe_antisymm a.data b.data h1 h2)

/-! ## MD5

`BackendPool.select_backend_by_ip` computes
`int(hashlib.md5(client_ip.encode()).hexdigest(), 16)`.  `hashlib.md5` is the
standard MD5 digest; it is embedded here in full (RFC 1321): padding,
little-endian 32-bit words, the 64-round compression, and the digest read back
as the big-endian integer that `int(hexdigest, 16)` yields.  Arithmetic is on
`Nat` with explicit reduction modulo `2 ^ 32`. -/

/-- Truncation to a 32-bit word. -/
def w32 (n : Nat) : Nat := n % 4294967296

/-- Left-rotation of a 32-bit word. -/
def rotl (x s : Nat) : Nat := w32 ((x <<< s) ||| (x >>> (32 - s)))

/-- The 64 MD5 round constants `K[i] = ⌊2^32·|sin(i+1)|⌋`. -/
def md5K : List Nat :=
  [0xd76aa478, 0xe8c7b756, 0x242070db, 0xc1bdceee,
   0xf57c0faf, 0x4787c62a, 0xa8304613, 0xfd469501,
   0x698098d8, 0x8b44f7af, 0xffff5bb1, 0x895cd7be,
   0x6b901122, 0xfd987193, 0xa679438e, 0x49b40821,
   0xf61e2562, 0xc040b340, 0x265e5a51, 0xe9b6c7aa,
   0xd62f105d, 0x02441453, 0xd8a1e681, 0xe7d3fbc8,
   0x21e1cde6, 0xc33707d6, 0xf4d50d87, 0x455a14ed,
   0xa9e3e905, 0xfcefa3f8, 0x676f02d9, 0x8d2a4c8a,
   0xfffa3942, 0x8771f681, 0x6d9d6122, 0xfde5380c,
   0xa4beea44, 0x4bdecfa9, 0xf6bb4b60, 0xbebfbc70,
   0x289b7ec6, 0xeaa127fa, 0xd4ef3085, 0x04881d05,
   0xd9d4d039, 0xe6db99e5, 0x1fa27cf8, 0xc4ac5665,
   0xf4292244, 0x432aff97, 0xab9423a7, 0xfc93a039,
   0x655b59c3, 0x8f0ccc92, 0xffeff47d, 0x85845dd1,
   0x6fa87e4f, 0xfe2ce6e0, 0xa3014314, 0x4e0811a1,
   0xf7537e82, 0xbd3af235, 0x2ad7d2bb, 0xeb86d391]

/-- The per-round left-rotation amounts. -/
def md5S : List Nat :=
  [7, 12, 17, 22, 7, 12, 17, 22, 7, 12, 17, 22, 7, 12, 17, 22,
   5, 9, 14, 20, 5, 9, 14, 20, 5, 9, 14, 20, 5, 9, 14, 20,
   4, 11, 16, 23, 4, 11, 16, 23, 4, 11, 16, 23, 4, 11, 16, 23,
   6, 10, 15, 21, 6, 10, 15, 21, 6, 10, 15, 21, 6, 10, 15, 21]

/-- The MD5 nonlinear functions F, G, H, I selected by round index. -/
def md5F (i b c d : Nat) : Nat :=
  if i < 16 then (b &&& c) ||| ((4294967295 ^^^ b) &&& d)
  else if i < 32 then (d &&& b) ||| ((4294967295 ^^^ d) &&& c)
  else if i < 48 then b ^^^ c ^^^ d
  else c ^^^ (b ||| (4294967295 ^^^ d))

/-- Message-word index for round `i`. -/
def md5G (i : Nat) : Nat :=
  if i < 16 then i
  else if i < 32 then (5 * i + 1) % 16
  else if i < 48 then (3 * i + 5) % 16
  else (7 * i) % 16

/-- Bytes (little-endian) to a 32-bit word. -/
def le32 (b0 b1 b2 b3 : Nat) : Nat :=
  b0 + b1 * 256 + b2 * 65536 + b3 * 16777216

/-- A 64-byte chunk as sixteen little-endian 32-bit words. -/
def toWords : List Nat → List Nat
  | b0 :: b1 :: b2 :: b3 :: rest => le32 b0 b1 b2 b3 :: toWords rest
  | _ => []

/-- One MD5 round on the state `(a, b, c, d)`. -/
def md5Round (m : List Nat) (st : Nat × Nat × Nat × Nat) (i : Nat) :
    Nat × Nat × Nat × Nat :=
  match st with
  | (a, b, c, d) =>
    let f := w32 (md5F i b c d + a + md5K.getD i 0 + m.getD (md5G i) 0)
    (d, w32 (b + rotl f (md5S.getD i 0)), b, c)

/-- The MD5 compression function on one 64-byte chunk. -/
def md5Chunk (st : Nat × Nat × Nat × Nat) (chunk : List Nat) :
    Nat × Nat × Nat × Nat :=
  let m := toWords chunk
  match st, (List.range 64).foldl (md5Round m) st with
  | (a0, b0, c0, d0), (a, b, c, d) =>
    (w32 (a0 + a), w32 (b0 + b), w32 (c0 + c), w32 (d0 + d))

/-- A 64-bit value as eight little-endian bytes. -/
def le64Bytes (n : Nat) : List Nat :=
  [n % 256, n / 256 % 256, n / 65536 % 256, n / 16777216 % 256,
   n / 4294967296 % 256, n / 1099511627776 % 256,
   n / 281474976710656 % 256, n / 72057594037927936 % 256]

/-- MD5 padding: `0x80`, zeros to 56 mod 64, then the bit length as a
little-endian 64-bit value. -/
def padMsg (msg : List Nat) : List Nat :=
  let len := msg.length
  msg ++ [128] ++ List.replicate ((119 - len % 64) % 64) 0 ++
    le64Bytes ((len * 8) % 18446744073709551616)

/-- Split into 64-byte chunks (fuel-indexed so that it is structural; the
fuel `l.length` is ample since every step consumes 64 bytes). -/
def chunksGo : Nat → List Nat → List (List Nat)
  | 0, _ => []
  | _, [] => []
  | fuel + 1, l => l.take 64 :: chunksGo fuel (l.drop 64)

/-- Split into 64-byte chunks. -/
def chunks64 (l : List Nat) : List (List Nat) :=
  chunksGo l.length l

/-- A 32-bit word as four little-endian bytes (the digest byte order). -/
def wordBytes (w : Nat) : List Nat :=
  [w % 256, w / 256 % 256, w / 65536 % 256, w / 16777216 % 256]

/-- The 16 MD5 digest bytes of a byte string. -/
def md5Bytes (msg : List Nat) : List Nat :=
  match (chunks64 (padMsg msg)).foldl md5Chunk
      (0x67452301, 0xefcdab89, 0x98badcfe, 0x10325476) with
  | (a, b, c, d) => wordBytes a ++ wordBytes b ++ wordBytes c ++ wordBytes d

/-- The digest read as a big-endian non-negative integer: exactly
`int(hashlib.md5(msg).hexdigest(), 16)`. -/
def md5Nat (msg : List Nat) : Nat :=
  (md5Bytes msg).foldl (fun acc b => acc * 256 + b) 0

/-- UTF-8 encoding of one code point. -/
def utf8Bytes (c : Nat) : List Nat :=
  if c < 128 then [c]
  else if c < 2048 then
    [192 ||| (c >>> 6), 128 ||| (c &&& 63)]
  else if c < 65536 then
    [224 ||| (c >>> 12), 128 ||| ((c >>> 6) &&& 63), 128 ||| (c &&& 63)]
  else
    [240 ||| (c >>> 18), 128 ||| ((c >>> 12) &&& 63),
     128 ||| ((c >>> 6) &&& 63), 128 ||| (c &&& 63)]

/-- `s.encode()`: the UTF-8 bytes of a string. -/
def strBytes (s : String) : List Nat :=
  s.data.flatMap (fun c => utf8Bytes c.toNat)

/-- `int(hashlib.md5(client_ip.encode()).hexdigest(), 16)`. -/
def md5Of (s : String) : Nat := md5Nat (strBytes s)

set_option maxRecDepth 100000 in
/-- MD5 test vector: the empty message. -/
theorem md5Bytes_nil :
    md5Nat [] = 0xd41d8cd98f00b204e9800998ecf8427e := by decide

set_option maxRecDepth 100000 in
/-- MD5 test vector: `"abc"`. -/
theorem md5Of_abc :
    md5Of "abc" = 0x900150983cd24fb0d6963f7d28e17f72 := by decide

/-! ## `core/scheduler_impl.py`: the weighted round-robin scheduler

`WeightedRoundRobinScheduler.set_backends` materialises
`self._weighted = [b for backend in backends for b in [backend]*backend.weight]`
and `__iter__` is `if not self._weighted: return` then
`while True: yield from self._weighted`. -/

/-- The repetition list built by `set_backends`: each backend repeated
`weight` times in configuration order (`[backend] * w` is empty for `w ≤ 0`,
like in Python). -/
def repetitionList (backends : List Backend) : List Backend :=
  backends.flatMap (fun b => List.replicate b.weight.toNat b)

/-- The first `n` values yielded by the generator
`while True: yield from w` (empty generator when `w = []`), where `rem` is
the not-yet-yielded tail of the current pass over `w`.  `genTake w w n` is
the stream of the scheduler's first `n` selections. -/
def genTake (w : List Backend) : List Backend → Nat → List Backend
  | _, 0 => []
  | [], Nat.succ n =>
    match w with
    | [] => []
    | b :: tl => b :: genTake w tl n
  | b :: tl, Nat.succ n => b :: genTake w tl n

/-! ## `backend_pool.py`: the pool state machine -/

/-- The scheduler object together with the state of its `__iter__` generator.
Each constructor stores the configured view as a list of pool-store keys
(modelling the Python object references held by the scheduler; the pool
always stores a backend under its own url) and, for the two list-cycling
schedulers, the cursor of the generator. -/
inductive Sched where
  | roundRobin (l : List String) (cursor : Nat)
  | weighted (rep : List String) (cursor : Nat)
  | leastConn (l : List String)
  | weightedLeastConn (l : List String)
  | leastRequests (l : List String)
deriving DecidableEq

/-- The keys of the scheduler's configured view. -/
def Sched.keys : Sched → List String
  | .roundRobin l _ => l
  | .weighted rep _ => rep
  | .leastConn l => l
  | .weightedLeastConn l => l
  | .leastRequests l => l

/-- `set_backends(healthy)` followed by `iter(...)`: recompute the configured
view from the current healthy backends and reset the cursor. -/
def Sched.rebuild (sc : Sched) (healthy : List (String × Backend)) : Sched :=
  match sc with
  | .roundRobin _ _ => .roundRobin (healthy.map (fun p => p.1)) 0
  | .weighted _ _ =>
    .weighted (healthy.flatMap (fun p => List.replicate p.2.weight.toNat p.1)) 0
  | .leastConn _ => .leastConn (healthy.map (fun p => p.1))
  | .weightedLeastConn _ => .weightedLeastConn (healthy.map (fun p => p.1))
  | .leastRequests _ => .leastRequests (healthy.map (fun p => p.1))

/-- Outcome of one `next(self._scheduler_iter)`. -/
inductive StepResult where
  | yielded (key : String)
  | stopped
  | failed (msg : String)
deriving DecidableEq

/-- The minimum of `x :: xs` under a strict order `lt` (what
`heapq.heapify` followed by `heap[0]` returns; the tuples are distinct in
every reachable heap, so the minimum is unique). -/
def foldMin {α : Type} (lt : α → α → Bool) (x : α) (xs : List α) : α :=
  xs.foldl (fun acc y => if lt y acc then y else acc) x

/-- Strict lexicographic order on `(Int, str)` heap tuples. -/
def intKeyLt (a b : Int × String) : Bool :=
  decide (a.1 < b.1 ∨ (a.1 = b.1 ∧ a.2 < b.2))

/-- Strict lexicographic order on `(float, str)` heap tuples (the float is an
exact rational here). -/
def ratKeyLt (a b : ℚ × String) : Bool :=
  decide (a.1 < b.1 ∨ (a.1 = b.1 ∧ a.2 < b.2))

/-- The heap tuples `(b.active_connections, url)` of `LeastConnectionsScheduler`,
reading the current objects; `none` when a reference is dangling (never the
case in a reachable pool). -/
def entriesAC (store : List (String × Backend)) : List String →
    Option (List (Int × String))
  | [] => some []
  | k :: ks =>
    match alistGet store k with
    | none => none
    | some b =>
      match entriesAC store ks with
      | none => none
      | some es => some ((b.active_connections, k) :: es)

/-- The heap tuples `(b.active_connections / b.weight, url)` of
`WeightedLeastConnectionsScheduler`, skipping backends with `weight ≤ 0`;
the float ratio is modelled as an exact rational. -/
def entriesWLC (store : List (String × Backend)) : List String →
    Option (List (ℚ × String))
  | [] => some []
  | k :: ks =>
    match alistGet store k with
    | none => none
    | some b =>
      match entriesWLC store ks with
      | none => none
      | some es =>
        if 0 < b.weight then
          some (((b.active_connections : ℚ) / (b.weight : ℚ), k) :: es)
        else some es

/-- The heap tuples `(b.total_requests, url)` of `LeastRequestsScheduler`;
reading the never-initialised `total_requests` attribute is an
`AttributeError`, modelled by `none`. -/
def entriesTR (store : List (String × Backend)) : List String →
    Option (List (Int × String))
  | [] => some []
  | k :: ks =>
    match alistGet store k with
    | none => none
    | some b =>
      match b.total_requests with
      | none => none
      | some t =>
        match entriesTR store ks with
        | none => none
        | some es => some ((t, k) :: es)

/-- One `next` on the scheduler generator, following the five `__iter__`
bodies of `core/scheduler_impl.py`.  The cycling schedulers yield their list
element at the cursor; the heap schedulers recompute a heap from the current
objects and yield its minimum; an empty configured view (or, for the weighted
least-connections scheduler, an empty heap) ends the generator. -/
def nextStep (sc : Sched) (store : List (String × Backend)) :
    StepResult × Sched :=
  match sc with
  | .roundRobin l c =>
    match h : l with
    | [] => (.stopped, .roundRobin l c)
    | _ :: _ =>
      (.yielded (l.get ⟨c % l.length, Nat.mod_lt c (by simp [h])⟩),
        .roundRobin l (c + 1))
  | .weighted rep c =>
    match h : rep with
    | [] => (.stopped, .weighted rep c)
    | _ :: _ =>
      (.yielded (rep.get ⟨c % rep.length, Nat.mod_lt c (by simp [h])⟩),
        .weighted rep (c + 1))
  | .leastConn l =>
    match l with
    | [] => (.stopped, .leastConn l)
    | _ :: _ =>
      match entriesAC store l with
      | none => (.failed "KeyError", .leastConn l)
      | some [] => (.stopped, .leastConn l)
      | some (e :: es) => (.yielded (foldMin intKeyLt e es).2, .leastConn l)
  | .weightedLeastConn l =>
    match l with
    | [] => (.stopped, .weightedLeastConn l)
    | _ :: _ =>
      match entriesWLC store l with
      | none => (.failed "KeyError", .weightedLeastConn l)
      | some [] => (.stopped, .weightedLeastConn l)
      | some (e :: es) =>
        (.yielded (foldMin ratKeyLt e es).2, .weightedLeastConn l)
  | .leastRequests l =>
    match l with
    | [] => (.stopped, .leastRequests l)
    | _ :: _ =>
      match entriesTR store l with
      | none => (.failed "AttributeError", .leastRequests l)
      | some [] => (.stopped, .leastRequests l)
      | some (e :: es) => (.yielded (foldMin intKeyLt e es).2, .leastRequests l)

/-- The state of one `BackendPool`: the `backends` dict, the scheduler object
with its generator (`armed` is `_scheduler_iter is not None`), and the
`_source_hash` flag.  The statistics store is independent (see
`finitePeriodStats`) and the metrics registry is modelled separately. -/
structure PoolState where
  backends : List (String × Backend)
  sched : Sched
  armed : Bool
  sourceHash : Bool
deriving DecidableEq

/-- The healthy entries of the pool, in dict order:
`[b for b in self.backends.values() if b.healthy]` keyed by their slots. -/
def healthyPairs (s : PoolState) : List (String × Backend) :=
  s.backends.filter (fun p => p.2.healthy)

/-- `BackendPool._rebuild_scheduler`. -/
def rebuildPool (s : PoolState) : PoolState :=
  { s with sched := s.sched.rebuild (healthyPairs s), armed := true }

/-- A fresh `BackendPool()`: empty dict, `RoundRobinScheduler()`,
`_scheduler_iter = None`, `_source_hash = False`. -/
def initPool : PoolState :=
  { backends := [], sched := .roundRobin [] 0, armed := false,
    sourceHash := false }

/-- The tail of `select_backend` once the generator yielded the backend
stored under `k`: pre-increment `active_connections` and return the object. -/
def finishSelect (s : PoolState) (sc : Sched) (k : String) :
    Except String (Option Backend) × PoolState :=
  match alistGet s.backends k with
  | none => (.error "KeyError", { s with sched := sc })
  | some b =>
    let b2 := { b with active_connections := b.active_connections + 1 }
    (.ok (some b2),
      { s with backends := alistSet s.backends k b2, sched := sc })

/-- `BackendPool.select_backend`: `None` when no backend is healthy; arm the
iterator if it is `None`; `next`, and on `StopIteration` rebuild once and
retry.  A raise is `Except.error` (the second `StopIteration` escapes the
`async def`); mutations performed before the raise are kept in the returned
state.  The `set_gauge` emission is outside the modelled state. -/
def selectBackend (s : PoolState) :
    Except String (Option Backend) × PoolState :=
  if (healthyPairs s).isEmpty then (.ok none, s)
  else
    let s1 := if s.armed then s else rebuildPool s
    match nextStep s1.sched s1.backends with
    | (.yielded k, sc) => finishSelect s1 sc k
    | (.failed m, sc) => (.error m, { s1 with sched := sc })
    | (.stopped, _) =>
      let s2 := rebuildPool s1
      match nextStep s2.sched s2.backends with
      | (.yielded k, sc) => finishSelect s2 sc k
      | (.failed m, sc) => (.error m, { s2 with sched := sc })
      | (.stopped, _) => (.error "StopIteration", s2)

/-- `BackendPool.release(backend)`:
`backend.active_connections -= 1` succeeds, then
`backend.total_requests += 1` reads the attribute the `Backend` dataclass
never defines, raising `AttributeError` when it was never set.  Returns the
outcome and the object as the call leaves it. -/
def releaseBackend (b : Backend) : Except String Unit × Backend :=
  let b1 := { b with active_connections := b.active_connections - 1 }
  match b1.total_requests with
  | none => (.error "AttributeError", b1)
  | some t => (.ok (), { b1 with total_requests := some (t + 1) })

/-- `BackendPool.set_scheduler(algo)`: clear `_source_hash`, then match the
algorithm name; an unknown name raises `ValueError` after the flag was
already cleared and before any rebuild, so the scheduler object survives.
Returns `(raised?, new state)`. -/
def setSched (algo : String) (s : PoolState) : Option String × PoolState :=
  let s1 := { s with sourceHash := false }
  match algo with
  | "round_robin" => (none, rebuildPool { s1 with sched := .roundRobin [] 0 })
  | "weighted" => (none, rebuildPool { s1 with sched := .weighted [] 0 })
  | "least_conn" => (none, rebuildPool { s1 with sched := .leastConn [] })
  | "weighted_least_conn" =>
    (none, rebuildPool { s1 with sched := .weightedLeastConn [] })
  | "least_requests" =>
    (none, rebuildPool { s1 with sched := .leastRequests [] })
  | "source_hash" => (none, rebuildPool { s1 with sourceHash := true })
  | _ => (some ("unknown scheduling algo: " ++ algo), s1)

/-- A dummy pair for the (unreachable) out-of-range branch of the sorted-list
indexing in `select_backend_by_ip`. -/
def dummyPair : String × Backend :=
  ("", { url := "" })

/-- `sorted(healthy_backends, key=lambda b: b.url)` on store entries:
Python's `sorted` is the stable sort by the code-point order on the urls,
which is what a stable insertion sort computes. -/
def sortByUrl (l : List (String × Backend)) : List (String × Backend) :=
  List.insertionSort (fun p q => strLeB p.2.url q.2.url = true) l

/-- `BackendPool.select_backend_by_ip(client_ip)`: sort the healthy backends
by url, index by MD5 of the ip modulo the length, pre-increment
`active_connections` on the chosen object. -/
def selectByIp (s : PoolState) (ip : String) : Option Backend × PoolState :=
  match healthyPairs s with
  | [] => (none, s)
  | h :: t =>
    let sorted := sortByUrl (h :: t)
    let p := sorted.getD (md5Of ip % sorted.length) dummyPair
    let b2 := { p.2 with active_connections := p.2.active_connections + 1 }
    (some b2, { s with backends := alistSet s.backends p.1 b2 })

/-- One observable pool operation.  `healthSet url h` is the effect of one
`_health_check` probe on one backend (`backend.healthy = resp.status < 500`,
or `False` on an exception; the probe outcome is the adversarial input).
`release url` is `release` applied to the stored object with that key. -/
inductive Op where
  | add (url : String) (weight : Int)
  | remove (url : String)
  | setScheduler (algo : String)
  | select
  | selectIp (ip : String)
  | release (url : String)
  | healthSet (url : String) (h : Bool)

/-- The state transition of one operation (exceptions propagate to the
caller; the state they leave behind is kept). -/
def applyOp (s : PoolState) : Op → PoolState
  | .add url w =>
    rebuildPool
      { s with backends := alistSet s.backends url { url := url, weight := w } }
  | .remove url =>
    rebuildPool { s with backends := alistRemove s.backends url }
  | .setScheduler algo => (setSched algo s).2
  | .select => (selectBackend s).2
  | .selectIp ip => (selectByIp s ip).2
  | .release url =>
    { s with backends := alistUpdate s.backends url (fun b => (releaseBackend b).2) }
  | .healthSet url h =>
    { s with backends := alistUpdate s.backends url (fun b => { b with healthy := h }) }

/-- Run a list of operations from a state. -/
def applyOps (s : PoolState) : List Op → PoolState
  | [] => s
  | op :: rest => applyOps (applyOp s op) rest

/-! ## `core/metrics.py` -/

/-- Python `round(x, 1)` modelled on exact rationals: nearest multiple of
`1/10`, ties to even (the binary-float tie cases of the real `round` cannot
be distinguished at the exact values the claims use). -/
def round1 (x : ℚ) : ℚ :=
  let y := x * 10
  let f : ℤ := ⌊y⌋
  let r := y - (f : ℚ)
  let n : ℤ :=
    if r < 1 / 2 then f
    else if 1 / 2 < r then f + 1
    else if f % 2 = 0 then f else f + 1
  (n : ℚ) / 10

/-- `sorted(self.values)` of a histogram (samples as exact rationals;
Python's stable sort modelled by insertion sort). -/
def sortedRats (values : List ℚ) : List ℚ :=
  List.insertionSort (fun a b : ℚ => a ≤ b) values

/-- `Histogram.percentiles` for one percentile `p`: `0.0` with no samples,
else `sorted_values[min(idx, len - 1)]` with `idx = int(len * p / 100)`
(for the integer percentiles `50, 90, 95, 99` used by the code, the float
expression `int(len(sorted_values) * p / 100)` is exactly the floor
division `len * p / 100` on naturals). -/
def percentileOf (values : List ℚ) (p : Nat) : ℚ :=
  match values with
  | [] => 0
  | _ :: _ =>
    let sorted := sortedRats values
    sorted.getD (min (sorted.length * p / 100) (sorted.length - 1)) 0

/-- The percentile labels `50, 90, 95, 99` queried by `get_metrics` and
`export_prometheus`. -/
def percentileLabels : List Nat := [50, 90, 95, 99]

/-- Boolean lexicographic order on `(name, value)` label pairs — the order
`sorted` uses on Python tuples of strings. -/
def labelLe (a b : String × String) : Bool :=
  strLtB a.1 b.1 || (decide (a.1 = b.1) && strLeB a.2 b.2)

/-- `MetricsCollector._make_labels_key`: `tuple(sorted(labels.items()))`.
The dict's items are its `(name, value)` pairs in insertion order. -/
def makeLabelsKey (labels : List (String × String)) : List (String × String) :=
  List.insertionSort (fun a b => labelLe a b = true) labels

/-- One counter family: `(name, labels key) → value`, flattened from the
two-level `defaultdict`. -/
def bumpCell (st : List ((String × List (String × String)) × Int))
    (key : String × List (String × String)) (v : Int) :
    List ((String × List (String × String)) × Int) :=
  match st with
  | [] => [(key, 0 + v)]
  | p :: rest =>
    if p.1 = key then (p.1, p.2 + v) :: rest else p :: bumpCell rest key v

/-- `MetricsCollector.increment_counter(name, labels, value)`:
`self._counters[name][self._make_labels_key(labels)].add(value)` (a missing
cell defaults to a fresh `Counter()` with value `0`). -/
def incrementCounter (st : List ((String × List (String × String)) × Int))
    (name : String) (labels : List (String × String)) (v : Int) :
    List ((String × List (String × String)) × Int) :=
  bumpCell st (name, makeLabelsKey labels) v

/-! ## The statistics store (`BackendPool.get_stats`, finite periods) -/

/-- `BackendPool._parse_period` over `self._period_map`. -/
def periodSeconds (period : String) : Option Nat :=
  match period with
  | "5m" => some 300
  | "30m" => some 1800
  | "1h" => some 3600
  | "6h" => some 21600
  | "24h" => some 86400
  | _ => none

/-- The finite-period branch of `BackendPool.get_stats` for one period:
`cutoff = now - seconds`; iterate `self._request_times` in dict order,
count timestamps `>= cutoff`, accumulate the running `total += count`, and
for each url with `count > 0` record
`(count, round(count / total * 100, 1))` — dividing by the *running* total
at that point of the iteration.  Returns `(total, backends table)`. -/
def finitePeriodStats (rt : List (String × List ℚ)) (now : ℚ) (seconds : Nat) :
    Nat × List (String × Nat × ℚ) :=
  let cutoff := now - (seconds : ℚ)
  rt.foldl
    (fun acc p =>
      let count := p.2.countP (fun ts => decide (cutoff ≤ ts))
      let total := acc.1 + count
      if 0 < count then
        let percentage : ℚ :=
          if 0 < total then (count : ℚ) / (total : ℚ) * 100 else 0
        (total, acc.2 ++ [(p.1, count, round1 percentage)])
      else (total, acc.2))
    (0, [])

/-- `get_stats` for one finite period token: parse it, then run the
finite-period computation (unknown tokens are skipped by the caller). -/
def getStatsPeriod (rt : List (String × List ℚ)) (now : ℚ) (period : String) :
    Option (Nat × List (String × Nat × ℚ)) :=
  (periodSeconds period).map (finitePeriodStats rt now)

/-! ## Association-list lemmas -/

theorem alistGet_mem {ν : Type} {l : List (String × ν)} {k : String} {v : ν}
    (h : alistGet l k = some v) : (k, v) ∈ l := by
  induction l with
  | nil => simp [alistGet] at h
  | cons p rest ih =>
    by_cases hk : p.1 = k
    · simp only [alistGet, if_pos hk, Option.some.injEq] at h
      exact List.mem_cons.mpr (Or.inl (Prod.ext hk.symm h.symm))
    · simp only [alistGet, if_neg hk] at h
      exact List.mem_cons.mpr (Or.inr (ih h))

theorem mem_alistGet_of_nodup {ν : Type} {l : List (String × ν)} {k : String}
    {v : ν} (hnd : (l.map Prod.fst).Nodup) (h : (k, v) ∈ l) :
    alistGet l k = some v := by
  induction l with
  | nil => simp at h
  | cons p rest ih =>
    simp only [List.map_cons, List.nodup_cons] at hnd
    rcases List.mem_cons.mp h with h1 | h1
    · simp [alistGet, ← h1]
    · have hk : p.1 ≠ k := by
        intro hpk
        exact hnd.1 (hpk ▸ List.mem_map.mpr ⟨(k, v), h1, rfl⟩)
      simp only [alistGet, if_neg hk]
      exact ih hnd.2 h1

theorem alistGet_isSome_of_mem_keys {ν : Type} {l : List (String × ν)}
    {k : String} (h : k ∈ l.map Prod.fst) : (alistGet l k).isSome := by
  induction l with
  | nil => simp at h
  | cons p rest ih =>
    by_cases hk : p.1 = k
    · simp [alistGet, hk]
    · simp only [alistGet, if_neg hk]
      simp only [List.map_cons, List.mem_cons] at h
      exact ih (h.resolve_left (fun hx => hk hx.symm))

theorem mem_alistSet {ν : Type} {l : List (String × ν)} {k : String} {v : ν}
    {p : String × ν} (h : p ∈ alistSet l k v) : p = (k, v) ∨ p ∈ l := by
  induction l with
  | nil => simpa [alistSet] using h
  | cons q rest ih =>
    by_cases hk : q.1 = k
    · simp only [alistSet, if_pos hk] at h
      rcases List.mem_cons.mp h with h1 | h1
      · exact Or.inl h1
      · exact Or.inr (List.mem_cons.mpr (Or.inr h1))
    · simp only [alistSet, if_neg hk] at h
      rcases List.mem_cons.mp h with h1 | h1
      · exact Or.inr (List.mem_cons.mpr (Or.inl h1))
      · rcases ih h1 with h2 | h2
        · exact Or.inl h2
        · exact Or.inr (List.mem_cons.mpr (Or.inr h2))

theorem mem_alistUpdate {ν : Type} {l : List (String × ν)} {k : String}
    {f : ν → ν} {p : String × ν} (h : p ∈ alistUpdate l k f) :
    p ∈ l ∨ ∃ q ∈ l, p = (q.1, f q.2) := by
  rcases List.mem_map.mp h with ⟨q, hq, hpq⟩
  by_cases hk : q.1 = k
  · exact Or.inr ⟨q, hq, by simpa [hk] using hpq.symm⟩
  · left
    have hqp : q = p := by simpa [hk] using hpq
    exact hqp ▸ hq

theorem mem_alistRemove {ν : Type} {l : List (String × ν)} {k : String}
    {p : String × ν} (h : p ∈ alistRemove l k) : p ∈ l :=
  List.mem_of_mem_filter h

/-! ## Heap-minimum and scheduler-step lemmas -/

theorem foldMin_mem {α : Type} (lt : α → α → Bool) (x : α) (xs : List α) :
    foldMin lt x xs ∈ x :: xs := by
  induction xs generalizing x with
  | nil => simp [foldMin]
  | cons y ys ih =>
    have hstep : foldMin lt x (y :: ys) = foldMin lt (if lt y x then y else x) ys := rfl
    rw [hstep]
    rcases List.mem_cons.mp (ih (if lt y x then y else x)) with h1 | h1
    · rw [h1]
      by_cases hlt : lt y x
      · simp [hlt]
      · simp [hlt]
    · exact List.mem_cons.mpr (Or.inr (List.mem_cons.mpr (Or.inr h1)))

theorem entriesAC_mem {store : List (String × Backend)} {l : List String}
    {es : List (Int × String)} (h : entriesAC store l = some es) :
    ∀ e ∈ es, e.2 ∈ l := by
  induction l generalizing es with
  | nil =>
    simp only [entriesAC, Option.some.injEq] at h
    simp [← h]
  | cons k ks ih =>
    simp only [entriesAC] at h
    cases hg : alistGet store k with
    | none => rw [hg] at h; exact absurd h (by simp)
    | some b =>
      rw [hg] at h
      cases he : entriesAC store ks with
      | none => rw [he] at h; exact absurd h (by simp)
      | some es0 =>
        rw [he] at h
        simp only [Option.some.injEq] at h
        intro e hee
        rcases List.mem_cons.mp (h ▸ hee) with h1 | h1
        · simp [h1]
        · exact List.mem_cons.mpr (Or.inr (ih he e h1))

theorem entriesWLC_mem {store : List (String × Backend)} {l : List String}
    {es : List (ℚ × String)} (h : entriesWLC store l = some es) :
    ∀ e ∈ es, e.2 ∈ l := by
  induction l generalizing es with
  | nil =>
    simp only [entriesWLC, Option.some.injEq] at h
    simp [← h]
  | cons k ks ih =>
    simp only [entriesWLC] at h
    cases hg : alistGet store k with
    | none => rw [hg] at h; exact absurd h (by simp)
    | some b =>
      rw [hg] at h
      cases he : entriesWLC store ks with
      | none => rw [he] at h; exact absurd h (by simp)
      | some es0 =>
        rw [he] at h
        by_cases hw : 0 < b.weight
        · simp only [if_pos hw, Option.some.injEq] at h
          intro e hee
          rcases List.mem_cons.mp (h ▸ hee) with h1 | h1
          · simp [h1]
          · exact List.mem_cons.mpr (Or.inr (ih he e h1))
        · simp only [if_neg hw, Option.some.injEq] at h
          intro e hee
          exact List.mem_cons.mpr (Or.inr (ih he e (h ▸ hee)))

theorem entriesTR_mem {store : List (String × Backend)} {l : List String}
    {es : List (Int × String)} (h : entriesTR store l = some es) :
    ∀ e ∈ es, e.2 ∈ l := by
  induction l generalizing es with
  | nil =>
    simp only [entriesTR, Option.some.injEq] at h
    simp [← h]
  | cons k ks ih =>
    simp only [entriesTR] at h
    cases hg : alistGet store k with
    | none => rw [hg] at h; exact absurd h (by simp)
    | some b =>
      rw [hg] at h
      dsimp only at h
      cases ht : b.total_requests with
      | none => rw [ht] at h; exact absurd h (by simp)
      | some t =>
        rw [ht] at h
        cases he : entriesTR store ks with
        | none => rw [he] at h; exact absurd h (by simp)
        | some es0 =>
          rw [he] at h
          simp only [Option.some.injEq] at h
          intro e hee
          rcases List.mem_cons.mp (h ▸ hee) with h1 | h1
          · simp [h1]
          · exact List.mem_cons.mpr (Or.inr (ih he e h1))

/-- Whatever the generator yields is one of the scheduler's configured
references. -/
theorem nextStep_yielded_mem {sc : Sched} {store : List (String × Backend)}
    {k : String} {sc2 : Sched}
    (h : nextStep sc store = (.yielded k, sc2)) : k ∈ sc.keys := by
  cases sc with
  | roundRobin l c =>
    cases l with
    | nil => exact absurd h (by simp [nextStep])
    | cons a tl =>
      simp only [nextStep, Prod.mk.injEq, StepResult.yielded.injEq] at h
      simp only [Sched.keys]
      exact h.1 ▸ (a :: tl).get_mem _ _
  | weighted rep c =>
    cases rep with
    | nil => exact absurd h (by simp [nextStep])
    | cons a tl =>
      simp only [nextStep, Prod.mk.injEq, StepResult.yielded.injEq] at h
      simp only [Sched.keys]
      exact h.1 ▸ (a :: tl).get_mem _ _
  | leastConn l =>
    cases l with
    | nil => exact absurd h (by simp [nextStep])
    | cons a tl =>
      simp only [nextStep] at h
      cases he : entriesAC store (a :: tl) with
      | none => rw [he] at h; exact absurd h (by simp)
      | some es =>
        rw [he] at h
        cases es with
        | nil => exact absurd h (by simp)
        | cons e es0 =>
          simp only [Prod.mk.injEq, StepResult.yielded.injEq] at h
          exact h.1 ▸ entriesAC_mem he _ (foldMin_mem intKeyLt e es0)
  | weightedLeastConn l =>
    cases l with
    | nil => exact absurd h (by simp [nextStep])
    | cons a tl =>
      simp only [nextStep] at h
      cases he : entriesWLC store (a :: tl) with
      | none => rw [he] at h; exact absurd h (by simp)
      | some es =>
        rw [he] at h
        cases es with
        | nil => exact absurd h (by simp)
        | cons e es0 =>
          simp only [Prod.mk.injEq, StepResult.yielded.injEq] at h
          exact h.1 ▸ entriesWLC_mem he _ (foldMin_mem ratKeyLt e es0)
  | leastRequests l =>
    cases l with
    | nil => exact absurd h (by simp [nextStep])
    | cons a tl =>
      simp only [nextStep] at h
      cases he : entriesTR store (a :: tl) with
      | none => rw [he] at h; exact absurd h (by simp)
      | some es =>
        rw [he] at h
        cases es with
        | nil => exact absurd h (by simp)
        | cons e es0 =>
          simp only [Prod.mk.injEq, StepResult.yielded.injEq] at h
          exact h.1 ▸ entriesTR_mem he _ (foldMin_mem intKeyLt e es0)

/-- Every reference in a rebuilt scheduler view points to one of the healthy
entries the rebuild saw. -/
theorem rebuild_keys_sub {sc : Sched} {healthy : List (String × Backend)}
    {k : String} (h : k ∈ (Sched.rebuild sc healthy).keys) :
    k ∈ healthy.map Prod.fst := by
  cases sc with
  | roundRobin l c => simpa [Sched.rebuild, Sched.keys] using h
  | weighted rep c =>
    simp only [Sched.rebuild, Sched.keys, List.mem_flatMap] at h
    rcases h with ⟨p, hp, hk⟩
    exact List.mem_map.mpr ⟨p, hp, (List.eq_of_mem_replicate hk).symm⟩
  | leastConn l => simpa [Sched.rebuild, Sched.keys] using h
  | weightedLeastConn l => simpa [Sched.rebuild, Sched.keys] using h
  | leastRequests l => simpa [Sched.rebuild, Sched.keys] using h

/-- In a pool whose dict keys are distinct, a key drawn from the healthy
entries resolves to a healthy object. -/
theorem healthyKeys_healthy {s : PoolState}
    (hnd : (s.backends.map Prod.fst).Nodup) {k : String} {b : Backend}
    (hk : k ∈ (healthyPairs s).map Prod.fst)
    (hg : alistGet s.backends k = some b) : b.healthy = true := by
  rcases List.mem_map.mp hk with ⟨p, hp, hpk⟩
  have hmem : p ∈ s.backends ∧ p.2.healthy = true := by
    simpa [healthyPairs] using List.mem_filter.mp hp
  have hget : alistGet s.backends k = some p.2 := by
    have : (k, p.2) ∈ s.backends := by
      have : p = (k, p.2) := Prod.ext hpk rfl
      exact this ▸ hmem.1
    exact mem_alistGet_of_nodup hnd this
  have : b = p.2 := by
    rw [hget] at hg
    exact (Option.some.injEq _ _ ▸ hg).symm
  exact this ▸ hmem.2

/-! ## Claim C1 -/

/-- C1: the claim says each `release` call decrements `active_connections` by
1 and increments `total_requests` by 1, so that `n` balanced select/release
pairs leave `active_connections` at its initial value and add `n` to
`total_requests`.  The code cannot do this: the `Backend` dataclass defines
no `total_requests` field and nothing ever initialises one, so the
`backend.total_requests += 1` in `release` raises `AttributeError` on every
backend the pool creates.  Evaluated here on the failing input: a fresh pool,
`add("b1")`, one `select_backend` (which returns the backend with
`active_connections = 1` and no `total_requests` attribute), then `release`:
the decrement happens, the increment raises, and `total_requests` is still
unset afterwards. -/
theorem C1_release_raises :
    (selectBackend (applyOps initPool [Op.add "b1" 1])).1 =
        Except.ok (some { url := "b1", weight := 1, active_connections := 1,
                          healthy := true, total_requests := none }) ∧
      (releaseBackend { url := "b1", weight := 1, active_connections := 1,
                        healthy := true, total_requests := none }).1 =
        Except.error "AttributeError" ∧
      (releaseBackend { url := "b1", weight := 1, active_connections := 1,
                        healthy := true, total_requests := none }).2 =
        { url := "b1", weight := 1, active_connections := 0, healthy := true,
          total_requests := none } :=
  ⟨rfl, rfl, rfl⟩

/-! ## Claim C4 -/

/-- C4: the claim says the percentage of every reported url is its count
divided by the final total, so that percentages do not depend on url
iteration order.  The code divides by the *running* total instead
(`total += count` happens inside the same loop iteration that computes
`percentage = count / total * 100`), as the spec itself warns in its
"known edge case".  Evaluated at the failing input
`request_times = {"a": [10], "b": [10]}`, `now = 10`, period `"5m"`
(two urls, one in-window timestamp each): the code reports `a` at `100.0`
and `b` at `50.0`, while the claimed formula gives both urls `50.0`. -/
theorem C4_running_total_percentage :
    periodSeconds "5m" = some 300 ∧
      getStatsPeriod [("a", [10]), ("b", [10])] 10 "5m" =
        some (2, [("a", 1, 100), ("b", 1, 50)]) ∧
      (100 : ℚ) ≠ round1 ((1 : ℚ) / 2 * 100) := by
  refine ⟨rfl, ?_, by norm_num [round1]⟩
  have hred : getStatsPeriod [("a", [10]), ("b", [10])] 10 "5m" =
      some (finitePeriodStats [("a", [10]), ("b", [10])] 10 300) := rfl
  rw [hred]
  norm_num [finitePeriodStats, round1]

/-! ## Claim C10 -/

/-- C10: `set_scheduler` with an unknown algorithm name raises `ValueError`,
but only after `self._source_hash = False` has already executed, so a pool
previously in source-hash mode is no longer in source-hash mode after the
failed call, while the scheduler object (and everything else) is untouched:
no rebuild happens on the error path. -/
theorem C10_set_scheduler_unknown (s : PoolState) (algo : String)
    (h : algo ∉ ["round_robin", "weighted", "least_conn",
      "weighted_least_conn", "least_requests", "source_hash"]) :
    (setSched algo s).1 = some ("unknown scheduling algo: " ++ algo) ∧
      (setSched algo s).2.sourceHash = false ∧
      (setSched algo s).2.sched = s.sched ∧
      (setSched algo s).2.backends = s.backends ∧
      (setSched algo s).2.armed = s.armed := by
  simp only [List.mem_cons, List.not_mem_nil, or_false, not_or] at h
  obtain ⟨h1, h2, h3, h4, h5, h6⟩ := h
  unfold setSched
  split <;> simp_all

/-- A pool in source-hash mode with a `least_conn` scheduler object, used to
witness C10. -/
def c10Pool : PoolState :=
  { backends := [("b", { url := "b" })], sched := .leastConn ["b"],
    armed := true, sourceHash := true }

/-- Witness for C10: the unknown name `"foo"` on a source-hash-mode pool. -/
theorem C10_set_scheduler_unknown_witness :
    (setSched "foo" c10Pool).1 = some "unknown scheduling algo: foo" ∧
      (setSched "foo" c10Pool).2.sourceHash = false ∧
      (setSched "foo" c10Pool).2.sched = .leastConn ["b"] := by
  have h := C10_set_scheduler_unknown c10Pool "foo" (by decide)
  exact ⟨h.1, h.2.1, h.2.2.1⟩

/-! ## Claim C5 -/

theorem countP_replicate {α : Type} (p : α → Bool) (n : Nat) (a : α) :
    (List.replicate n a).countP p = if p a then n else 0 := by
  induction n with
  | zero => simp
  | succ m ih =>
    rw [List.replicate_succ, List.countP_cons, ih]
    by_cases hp : p a <;> simp [hp]

theorem mem_repetitionList {bs : List Backend} {x : Backend}
    (h : x ∈ repetitionList bs) : x ∈ bs ∧ 1 ≤ x.weight := by
  rcases List.mem_flatMap.mp h with ⟨b0, hb0, hx⟩
  rcases List.mem_replicate.mp hx with ⟨hn, hxe⟩
  subst hxe
  exact ⟨hb0, by omega⟩

theorem countP_repetitionList {bs : List Backend} {b : Backend}
    (hnd : (bs.map Backend.url).Nodup) (hb : b ∈ bs) :
    (repetitionList bs).countP (fun x => x.url == b.url) = b.weight.toNat := by
  induction bs with
  | nil => simp at hb
  | cons b0 rest ih =>
    simp only [List.map_cons, List.nodup_cons] at hnd
    have hrep : repetitionList (b0 :: rest) =
        List.replicate b0.weight.toNat b0 ++ repetitionList rest := by
      simp [repetitionList]
    rw [hrep, List.countP_append, countP_replicate]
    rcases List.mem_cons.mp hb with hb1 | hb1
    · subst hb1
      rw [if_pos (by simp)]
      have hz : (repetitionList rest).countP (fun x => x.url == b.url) = 0 := by
        apply List.countP_eq_zero.mpr
        intro x hx
        have hxr := (mem_repetitionList hx).1
        have hxu : x.url ≠ b.url := by
          intro he
          exact hnd.1 (he ▸ List.mem_map.mpr ⟨x, hxr, rfl⟩)
        simp [hxu]
      rw [hz, Nat.add_zero]
    · have hne : (b0.url == b.url) = false := by
        have : b0.url ≠ b.url := by
          intro he
          exact hnd.1 (he ▸ List.mem_map.mpr ⟨b, hb1, rfl⟩)
        simpa using this
      rw [hne, if_neg (by simp), ih hnd.2 hb1, Nat.zero_add]

/-- The element at position `i` of the cycling generator stream is the
repetition-list element at `i` modulo the period, where `pre ++ rem = w`
tracks how far the current pass has advanced. -/
theorem genTake_getElem (w : List Backend) :
    ∀ (n : Nat) (pre rem : List Backend), w = pre ++ rem →
      ∀ i, i < n → (genTake w rem n)[i]? = w[(pre.length + i) % w.length]? := by
  intro n
  induction n with
  | zero => intro pre rem _ i hi; omega
  | succ m ih =>
    intro pre rem hw i hi
    cases rem with
    | nil =>
      cases w with
      | nil => simp [genTake]
      | cons b tl =>
        have hpre : pre = b :: tl := by simpa using hw.symm
        show (b :: genTake (b :: tl) tl m)[i]? =
          (b :: tl)[(pre.length + i) % (b :: tl).length]?
        cases i with
        | zero =>
          have hlen : (pre.length + 0) % (b :: tl).length = 0 := by
            rw [hpre, Nat.add_zero, Nat.mod_self]
          rw [hlen]
          simp
        | succ j =>
          have hj := ih [b] tl rfl j (by omega)
          simp only [List.getElem?_cons_succ]
          rw [hj]
          have harith : (List.length [b] + j) % (b :: tl).length =
              (pre.length + (j + 1)) % (b :: tl).length := by
            rw [hpre]
            rw [Nat.add_mod_left, Nat.add_comm (List.length [b]) j]
            rfl
          rw [harith]
    | cons b tl =>
      show (b :: genTake w tl m)[i]? =
        w[(pre.length + i) % w.length]?
      cases i with
      | zero =>
        have hlt : pre.length < w.length := by
          rw [hw, List.length_append, List.length_cons]
          omega
        have hlen : (pre.length + 0) % w.length = pre.length := by
          rw [Nat.add_zero]
          exact Nat.mod_eq_of_lt hlt
        rw [hlen, hw]
        rw [List.getElem?_append_right (Nat.le_refl pre.length)]
        simp
      | succ j =>
        have hj := ih (pre ++ [b]) tl (by rw [hw]; simp) j (by omega)
        simp only [List.getElem?_cons_succ]
        rw [hj]
        have harith : (pre ++ [b]).length + j = pre.length + (j + 1) := by
          rw [List.length_append]
          simp
          omega
        rw [harith]

/-- The two concrete backends of the claim's example, weights 2 and 1. -/
def c5b1 : Backend := { url := "b1", weight := 2 }

/-- See `c5b1`. -/
def c5b2 : Backend := { url := "b2", weight := 1 }

/-- C5: the weighted round-robin scheduler materialises the repetition list
(each backend `weight` times, in configuration order) and its stream is the
deterministic cycle of that list: every streamed element is a configured
backend of weight at least 1 (so `weight = 0` removes a backend from
rotation), a backend with distinct urls appears exactly `weight` times per
period, the `i`-th selection is the repetition-list entry at `i mod period`,
and for backends `[b1, b2]` with weights `[2, 1]` the first six selections
are exactly `b1, b1, b2, b1, b1, b2`. -/
theorem C5_weighted_round_robin :
    (∀ (bs : List Backend) (b : Backend), b.weight = 0 →
      b ∉ repetitionList bs) ∧
    (∀ (bs : List Backend) (b : Backend), (bs.map Backend.url).Nodup →
      b ∈ bs →
      (repetitionList bs).countP (fun x => x.url == b.url) = b.weight.toNat) ∧
    (∀ (w : List Backend) (n i : Nat), i < n →
      (genTake w w n)[i]? = w[i % w.length]?) ∧
    repetitionList [c5b1, c5b2] = [c5b1, c5b1, c5b2] ∧
    genTake [c5b1, c5b1, c5b2] [c5b1, c5b1, c5b2] 6 =
      [c5b1, c5b1, c5b2, c5b1, c5b1, c5b2] := by
  refine ⟨?_, ?_, ?_, by decide, by decide⟩
  · intro bs b hw hmem
    have := (mem_repetitionList hmem).2
    omega
  · intro bs b hnd hb
    exact countP_repetitionList hnd hb
  · intro w n i hi
    have := genTake_getElem w n [] w rfl i hi
    simpa using this

/-- Witness for C5: a weight-0 backend is not in its own repetition list, and
`b1` (weight 2) appears twice in the repetition list of the example. -/
theorem C5_weighted_round_robin_witness :
    ({ url := "z", weight := 0 } : Backend) ∉
        repetitionList [{ url := "z", weight := 0 }] ∧
      (repetitionList [c5b1, c5b2]).countP (fun x => x.url == c5b1.url) = 2 := by
  constructor
  · exact C5_weighted_round_robin.1 _ _ rfl
  · exact C5_weighted_round_robin.2.1 [c5b1, c5b2] c5b1 (by decide)
      (by simp)

/-! ## Claim C8 -/

/-- C8: for a non-empty multiset of samples and each queried percentile
`p ∈ {50, 90, 95, 99}`, the histogram reports
`sorted_samples[min(⌊len·p/100⌋, len-1)]`: the sorted list is an ascending
permutation of the samples of the same length, the clamped index is in
bounds, and `percentiles` returns exactly that element. -/
theorem C8_histogram_percentiles (values : List ℚ) (p : Nat)
    (hne : values ≠ []) (hp : p ∈ percentileLabels) :
    (sortedRats values).Sorted (· ≤ ·) ∧
      (sortedRats values).Perm values ∧
      (sortedRats values).length = values.length ∧
      ∃ hlt : min (values.length * p / 100) (values.length - 1) <
          (sortedRats values).length,
        percentileOf values p =
          (sortedRats values).get
            ⟨min (values.length * p / 100) (values.length - 1), hlt⟩ := by
  have hperm : (sortedRats values).Perm values := List.perm_insertionSort _ _
  have hlen : (sortedRats values).length = values.length := hperm.length_eq
  have hpos : 0 < values.length := List.length_pos.mpr hne
  have hlt : min (values.length * p / 100) (values.length - 1) <
      (sortedRats values).length := by
    rw [hlen]
    exact lt_of_le_of_lt (min_le_right _ _) (by omega)
  refine ⟨List.sorted_insertionSort _ _, hperm, hlen, hlt, ?_⟩
  cases values with
  | nil => exact absurd rfl hne
  | cons v vs =>
    simp only [percentileOf]
    conv_lhs => rw [hlen]
    rw [List.getD_eq_getElem?_getD, List.getElem?_eq_getElem hlt]
    simp [List.get_eq_getElem]

/-- Witness for C8: the samples `[3, 1, 2]` at `p = 50` give the element at
index `min(⌊3·50/100⌋, 2) = 1` of `[1, 2, 3]`, namely `2`. -/
theorem C8_histogram_percentiles_witness : percentileOf [3, 1, 2] 50 = 2 := by
  obtain ⟨hlt, he⟩ :=
    (C8_histogram_percentiles [3, 1, 2] 50 (by decide) (by decide)).2.2.2
  rw [he]
  rfl

/-! ## Claim C9 -/

theorem charListLt_irrefl : ∀ a : List Char, charListLt a a = false
  | [] => rfl
  | c :: cs => by
    simp only [charListLt]
    rw [if_neg (by omega)]
    simpa using charListLt_irrefl cs

theorem charListLt_asymm : ∀ a b : List Char,
    charListLt a b = true → charListLt b a = false
  | [], [], h => by simp [charListLt] at h
  | [], _ :: _, _ => rfl
  | _ :: _, [], h => by simp [charListLt] at h
  | a :: as, b :: bs, h => by
    simp only [charListLt] at h ⊢
    by_cases h1 : a.toNat < b.toNat
    · rw [if_neg (by omega), if_neg (by omega)]
    · by_cases h2 : a.toNat = b.toNat
      · rw [if_neg h1, if_pos h2] at h
        rw [if_neg (by omega), if_pos h2.symm]
        exact charListLt_asymm as bs h
      · rw [if_neg h1, if_neg h2] at h
        exact absurd h (by simp)

theorem charListLt_trans : ∀ a b c : List Char,
    charListLt a b = true → charListLt b c = true → charListLt a c = true
  | [], [], _, hab, _ => by simp [charListLt] at hab
  | [], _ :: _, [], _, hbc => by simp [charListLt] at hbc
  | [], _ :: _, _ :: _, _, _ => rfl
  | _ :: _, [], _, hab, _ => by simp [charListLt] at hab
  | _ :: _, _ :: _, [], _, hbc => by simp [charListLt] at hbc
  | a :: as, b :: bs, c :: cs, hab, hbc => by
    simp only [charListLt] at hab hbc ⊢
    by_cases h1 : a.toNat < b.toNat
    · by_cases h2 : b.toNat < c.toNat
      · rw [if_pos (by omega)]
      · rw [if_neg h2] at hbc
        by_cases h3 : b.toNat = c.toNat
        · rw [if_pos (by omega)]
        · rw [if_neg h3] at hbc
          exact absurd hbc (by simp)
    · rw [if_neg h1] at hab
      by_cases h4 : a.toNat = b.toNat
      · rw [if_pos h4] at hab
        by_cases h2 : b.toNat < c.toNat
        · rw [if_pos (by omega)]
        · rw [if_neg h2] at hbc
          by_cases h3 : b.toNat = c.toNat
          · rw [if_pos h3] at hbc
            rw [if_neg (by omega), if_pos (by omega)]
            exact charListLt_trans as bs cs hab hbc
          · rw [if_neg h3] at hbc
            exact absurd hbc (by simp)
      · rw [if_neg h4] at hab
        exact absurd hab (by simp)

theorem charListLt_trichotomy : ∀ a b : List Char,
    charListLt a b = true ∨ a = b ∨ charListLt b a = true
  | [], [] => Or.inr (Or.inl rfl)
  | [], _ :: _ => Or.inl rfl
  | _ :: _, [] => Or.inr (Or.inr rfl)
  | a :: as, b :: bs => by
    rcases Nat.lt_trichotomy a.toNat b.toNat with h | h | h
    · left
      simp only [charListLt]
      rw [if_pos h]
    · rcases charListLt_trichotomy as bs with ht | ht | ht
      · left
        simp only [charListLt]
        rw [if_neg (by omega), if_pos h]
        exact ht
      · right; left
        rw [charToNat_inj h, ht]
      · right; right
        simp only [charListLt]
        rw [if_neg (by omega), if_pos h.symm]
        exact ht
    · right; right
      simp only [charListLt]
      rw [if_pos h]

theorem strLtB_irrefl (a : String) : strLtB a a = false :=
  charListLt_irrefl a.data

theorem strLtB_asymm {a b : String} (h : strLtB a b = true) :
    strLtB b a = false :=
  charListLt_asymm a.data b.data h

theorem strLtB_trans {a b c : String} (h1 : strLtB a b = true)
    (h2 : strLtB b c = true) : strLtB a c = true :=
  charListLt_trans a.data b.data c.data h1 h2

theorem strLtB_trichotomy (a b : String) :
    strLtB a b = true ∨ a = b ∨ strLtB b a = true := by
  rcases charListLt_trichotomy a.data b.data with h | h | h
  · exact Or.inl h
  · exact Or.inr (Or.inl (String.ext h))
  · exact Or.inr (Or.inr h)

theorem labelLe_total : ∀ a b : String × String,
    labelLe a b = true ∨ labelLe b a = true := by
  intro a b
  rcases strLtB_trichotomy a.1 b.1 with h | h | h
  · left
    simp [labelLe, h]
  · rcases strLeB_total a.2 b.2 with h2 | h2
    · left
      simp [labelLe, h, h2]
    · right
      simp [labelLe, h.symm, h2]
  · right
    simp [labelLe, h]

theorem labelLe_trans : ∀ a b c : String × String,
    labelLe a b = true → labelLe b c = true → labelLe a c = true := by
  intro a b c hab hbc
  simp only [labelLe, Bool.or_eq_true, Bool.and_eq_true,
    decide_eq_true_eq] at hab hbc ⊢
  rcases hab with h1 | ⟨h1, h1b⟩
  · rcases hbc with h2 | ⟨h2, h2b⟩
    · exact Or.inl (strLtB_trans h1 h2)
    · left
      rw [← h2]
      exact h1
  · rcases hbc with h2 | ⟨h2, h2b⟩
    · left
      rw [h1]
      exact h2
    · exact Or.inr ⟨h1.trans h2, strLeB_trans h1b h2b⟩

theorem labelLe_antisymm : ∀ a b : String × String,
    labelLe a b = true → labelLe b a = true → a = b := by
  intro a b hab hba
  simp only [labelLe, Bool.or_eq_true, Bool.and_eq_true,
    decide_eq_true_eq] at hab hba
  rcases hab with h1 | ⟨h1, h1b⟩
  · rcases hba with h2 | ⟨h2, h2b⟩
    · rw [strLtB_asymm h1] at h2
      exact absurd h2 (by simp)
    · rw [h2] at h1
      rw [strLtB_irrefl] at h1
      exact absurd h1 (by simp)
  · rcases hba with h2 | ⟨h2, h2b⟩
    · rw [h1] at h2
      rw [strLtB_irrefl] at h2
      exact absurd h2 (by simp)
    · exact Prod.ext h1 (strLeB_antisymm h1b h2b)

/-- C9: the metrics registry's label-set key is the sorted tuple of the
`(name, value)` pairs, so two label dicts holding the same pairs in any
insertion order produce the same key, and counter increments through either
ordering update the same cell of the counter store. -/
theorem C9_labels_key_order_insensitive (l1 l2 : List (String × String))
    (h : l1.Perm l2) :
    makeLabelsKey l1 = makeLabelsKey l2 ∧
      ∀ (st : List ((String × List (String × String)) × Int))
        (name : String) (v : Int),
        incrementCounter st name l1 v = incrementCounter st name l2 v := by
  haveI : IsTotal (String × String) (fun a b => labelLe a b = true) :=
    ⟨labelLe_total⟩
  haveI : IsTrans (String × String) (fun a b => labelLe a b = true) :=
    ⟨labelLe_trans⟩
  haveI : IsAntisymm (String × String) (fun a b => labelLe a b = true) :=
    ⟨labelLe_antisymm⟩
  have hk : makeLabelsKey l1 = makeLabelsKey l2 := by
    apply List.eq_of_perm_of_sorted
      (r := fun a b : String × String => labelLe a b = true)
    · exact (List.perm_insertionSort _ _).trans
        (h.trans (List.perm_insertionSort _ _).symm)
    · exact List.sorted_insertionSort _ _
    · exact List.sorted_insertionSort _ _
  refine ⟨hk, fun st name v => ?_⟩
  unfold incrementCounter
  rw [hk]

/-- Witness for C9: `{a=1, b=2}` and `{b=2, a=1}` produce the same key,
which evaluates to the sorted tuple `[("a","1"), ("b","2")]`. -/
theorem C9_labels_key_witness :
    makeLabelsKey [("a", "1"), ("b", "2")] =
        makeLabelsKey [("b", "2"), ("a", "1")] ∧
      makeLabelsKey [("b", "2"), ("a", "1")] = [("a", "1"), ("b", "2")] :=
  ⟨(C9_labels_key_order_insensitive _ _
      (List.Perm.swap ("b", "2") ("a", "1") [])).1,
    by decide⟩

/-! ## Selection-path lemmas shared by C2, C3 and C7 -/

theorem finishSelect_of_isSome {s : PoolState} (sc : Sched) {k : String}
    (h : (alistGet s.backends k).isSome) :
    ∃ b0, alistGet s.backends k = some b0 ∧
      finishSelect s sc k =
        (Except.ok (some { b0 with
            active_connections := b0.active_connections + 1 }),
          { s with
            backends := alistSet s.backends k
              { b0 with active_connections := b0.active_connections + 1 },
            sched := sc }) := by
  cases hg : alistGet s.backends k with
  | none => rw [hg] at h; simp at h
  | some b0 =>
    refine ⟨b0, rfl, ?_⟩
    unfold finishSelect
    rw [hg]

theorem finishSelect_ok {s : PoolState} {sc : Sched} {k : String}
    {b : Backend} {s2 : PoolState}
    (h : finishSelect s sc k = (Except.ok (some b), s2)) :
    ∃ b0, alistGet s.backends k = some b0 ∧
      b = { b0 with active_connections := b0.active_connections + 1 } := by
  unfold finishSelect at h
  cases hg : alistGet s.backends k with
  | none => rw [hg] at h; simp at h
  | some b0 =>
    rw [hg] at h
    simp only [Prod.mk.injEq, Except.ok.injEq, Option.some.injEq] at h
    exact ⟨b0, rfl, h.1.symm⟩

/-- `select_backend` on a pool with a healthy backend and an armed iterator:
one `next`, with a single rebuild-and-retry on `StopIteration`. -/
theorem selectBackend_armed {s : PoolState}
    (hne : (healthyPairs s).isEmpty = false) (harm : s.armed = true) :
    selectBackend s =
      match nextStep s.sched s.backends with
      | (.yielded k, sc) => finishSelect s sc k
      | (.failed m, sc) => (.error m, { s with sched := sc })
      | (.stopped, _) =>
        match nextStep (rebuildPool s).sched (rebuildPool s).backends with
        | (.yielded k, sc) => finishSelect (rebuildPool s) sc k
        | (.failed m, sc) => (.error m, { rebuildPool s with sched := sc })
        | (.stopped, _) => (.error "StopIteration", rebuildPool s) := by
  obtain ⟨bk, sc0, arm, sh⟩ := s
  replace harm : arm = true := harm
  subst harm
  unfold selectBackend
  rw [hne]
  rfl

/-- `select_backend` with a disarmed iterator (`_scheduler_iter is None`):
rebuild first, then as in the armed case. -/
theorem selectBackend_unarmed {s : PoolState}
    (hne : (healthyPairs s).isEmpty = false) (harm : s.armed = false) :
    selectBackend s =
      match nextStep (rebuildPool s).sched (rebuildPool s).backends with
      | (.yielded k, sc) => finishSelect (rebuildPool s) sc k
      | (.failed m, sc) => (.error m, { rebuildPool s with sched := sc })
      | (.stopped, _) =>
        match nextStep (rebuildPool (rebuildPool s)).sched
            (rebuildPool (rebuildPool s)).backends with
        | (.yielded k, sc) => finishSelect (rebuildPool (rebuildPool s)) sc k
        | (.failed m, sc) =>
          (.error m, { rebuildPool (rebuildPool s) with sched := sc })
        | (.stopped, _) =>
          (.error "StopIteration", rebuildPool (rebuildPool s)) := by
  obtain ⟨bk, sc0, arm, sh⟩ := s
  replace harm : arm = false := harm
  subst harm
  unfold selectBackend
  rw [hne]
  rfl

/-- The armed path when the generator yields directly. -/
theorem selectBackend_armed_yield {s : PoolState}
    (hne : (healthyPairs s).isEmpty = false) (harm : s.armed = true)
    {k : String} {sc : Sched}
    (hstep : nextStep s.sched s.backends = (.yielded k, sc)) :
    selectBackend s = finishSelect s sc k := by
  rw [selectBackend_armed hne harm, hstep]

/-- The armed path when the generator is exhausted once and the rebuilt
generator yields. -/
theorem selectBackend_armed_stopped_yield {s : PoolState}
    (hne : (healthyPairs s).isEmpty = false) (harm : s.armed = true)
    {sc0 : Sched} {k : String} {sc : Sched}
    (hstop : nextStep s.sched s.backends = (.stopped, sc0))
    (hstep : nextStep (rebuildPool s).sched (rebuildPool s).backends =
      (.yielded k, sc)) :
    selectBackend s = finishSelect (rebuildPool s) sc k := by
  rw [selectBackend_armed hne harm, hstop]
  show (match nextStep (rebuildPool s).sched (rebuildPool s).backends with
    | (.yielded k, sc) => finishSelect (rebuildPool s) sc k
    | (.failed m, sc) => (.error m, { rebuildPool s with sched := sc })
    | (.stopped, _) => (.error "StopIteration", rebuildPool s)) =
    finishSelect (rebuildPool s) sc k
  rw [hstep]

/-! ## Claim C3 -/

/-- The counterexample pool for C3: one healthy backend of weight 0 under
the weighted round-robin scheduler (its repetition list is empty). -/
def c3Pool : PoolState :=
  applyOps initPool [Op.add "b1" 0, Op.setScheduler "weighted"]

/-- C3 counterexample: the claim says `select_backend` never raises and that
the rebuild-and-retry after an exhausted iterator always succeeds, in
particular under weighted round-robin when every healthy backend has weight
0.  On exactly that input — a pool holding the single healthy backend
`("b1", weight 0)` with the `weighted` scheduler — both `next` calls raise
`StopIteration` and `select_backend` propagates it, even though a healthy
backend exists. -/
theorem C3_counterexample :
    ("b1", ({ url := "b1", weight := 0 } : Backend)) ∈ c3Pool.backends ∧
      ({ url := "b1", weight := 0 } : Backend).healthy = true ∧
      (selectBackend c3Pool).1 = Except.error "StopIteration" :=
  ⟨by decide, rfl, rfl⟩

/-- C3 as amended: `select_backend` returns a backend with
`active_connections` pre-incremented (or `none` when no backend is healthy),
and the single rebuild-and-retry after an exhausted iterator succeeds
*provided the rebuilt view is non-empty* — for the weighted round-robin
scheduler, whenever some healthy backend has weight ≥ 1.  When every healthy
backend has weight 0 the retry exhausts again and `select_backend` raises
`StopIteration` (see the counterexample). -/
theorem C3_amended (s : PoolState) (rep : List String) (c : Nat)
    (hsched : s.sched = Sched.weighted rep c) (harm : s.armed = true)
    (hdom : ∀ k ∈ rep, (alistGet s.backends k).isSome)
    (hw : ∃ p ∈ healthyPairs s, 1 ≤ p.2.weight) :
    ∃ b k b0, (selectBackend s).1 = Except.ok (some b) ∧
      alistGet s.backends k = some b0 ∧
      b = { b0 with active_connections := b0.active_connections + 1 } := by
  obtain ⟨p, hp, hpw⟩ := hw
  have hne : (healthyPairs s).isEmpty = false := by
    cases hhp : healthyPairs s with
    | nil => rw [hhp] at hp; simp at hp
    | cons x xs => rfl
  cases rep with
  | nil =>
    have hstop : nextStep s.sched s.backends = (.stopped, Sched.weighted [] c) := by
      rw [hsched]
      rfl
    have hrb : (rebuildPool s).sched =
        Sched.weighted ((healthyPairs s).flatMap
          (fun q => List.replicate q.2.weight.toNat q.1)) 0 := by
      show Sched.rebuild s.sched (healthyPairs s) = _
      rw [hsched]
      rfl
    cases hrep2 : (healthyPairs s).flatMap
        (fun q => List.replicate q.2.weight.toNat q.1) with
    | nil =>
      have hmem : p.1 ∈ (healthyPairs s).flatMap
          (fun q => List.replicate q.2.weight.toNat q.1) :=
        List.mem_flatMap.mpr ⟨p, hp, List.mem_replicate.mpr ⟨by omega, rfl⟩⟩
      rw [hrep2] at hmem
      simp at hmem
    | cons a tl =>
      rw [hrep2] at hrb
      have hdom2 : ∀ k ∈ a :: tl, (alistGet s.backends k).isSome := by
        intro k hk
        rw [← hrep2] at hk
        rcases List.mem_flatMap.mp hk with ⟨q, hq, hkq⟩
        have hkeq := List.eq_of_mem_replicate hkq
        have hqb : q ∈ s.backends := (List.mem_filter.mp hq).1
        exact alistGet_isSome_of_mem_keys
          (hkeq ▸ List.mem_map.mpr ⟨q, hqb, rfl⟩)
      have hstep : nextStep (rebuildPool s).sched (rebuildPool s).backends =
          (.yielded ((a :: tl).get ⟨0 % (a :: tl).length,
            Nat.mod_lt 0 (by simp)⟩), Sched.weighted (a :: tl) (0 + 1)) := by
        rw [hrb]
        rfl
      have hsel := selectBackend_armed_stopped_yield hne harm hstop hstep
      have hys : (alistGet (rebuildPool s).backends
          ((a :: tl).get ⟨0 % (a :: tl).length,
            Nat.mod_lt 0 (by simp)⟩)).isSome :=
        hdom2 _ (List.get_mem _ _ _)
      obtain ⟨b0, hg, hfs⟩ := finishSelect_of_isSome
        (Sched.weighted (a :: tl) (0 + 1)) hys
      rw [hsel, hfs]
      exact ⟨_, _, b0, rfl, hg, rfl⟩
  | cons k0 ks =>
    have hstep : nextStep s.sched s.backends =
        (.yielded ((k0 :: ks).get ⟨c % (k0 :: ks).length,
          Nat.mod_lt c (by simp)⟩), Sched.weighted (k0 :: ks) (c + 1)) := by
      rw [hsched]
      rfl
    have hsel := selectBackend_armed_yield hne harm hstep
    have hys : (alistGet s.backends
        ((k0 :: ks).get ⟨c % (k0 :: ks).length,
          Nat.mod_lt c (by simp)⟩)).isSome :=
      hdom _ (List.get_mem _ _ _)
    obtain ⟨b0, hg, hfs⟩ := finishSelect_of_isSome
      (Sched.weighted (k0 :: ks) (c + 1)) hys
    rw [hsel, hfs]
    exact ⟨_, _, b0, rfl, hg, rfl⟩

/-- The witness pool for C3: one healthy backend of weight 2 under the
weighted scheduler (repetition list `["a", "a"]`, armed). -/
def c3WitnessPool : PoolState :=
  applyOps initPool [Op.add "a" 2, Op.setScheduler "weighted"]

/-- Witness for C3's amended theorem at a concrete pool. -/
theorem C3_amended_witness :
    (selectBackend c3WitnessPool).1 =
      Except.ok (some { url := "a", weight := 2, active_connections := 1 }) := by
  have happ := C3_amended c3WitnessPool ["a", "a"] 0 rfl rfl
    (by
      intro k hk
      have hk2 : k ∈ ["a", "a"] := hk
      simp only [List.mem_cons, List.not_mem_nil, or_false, or_self] at hk2
      subst hk2
      rfl)
    ⟨("a", { url := "a", weight := 2 }), by decide, by decide⟩
  obtain ⟨b, k, b0, h1, h2, h3⟩ := happ
  have hco : Except.ok (some b) =
      (Except.ok (some { url := "a", weight := 2, active_connections := 1 }) :
        Except String (Option Backend)) :=
    h1.symm.trans rfl
  exact h1.trans hco

/-! ## Claim C2 -/

/-- Inversion of a successful `select_backend`: the returned backend is the
stored object under some key `k`, with `active_connections` pre-incremented,
and `k` was drawn either from the armed scheduler view or from a view
rebuilt (inside this very call) from the currently healthy entries. -/
theorem selectBackend_ok_cases {s : PoolState} {b : Backend} {s2 : PoolState}
    (hsel : selectBackend s = (Except.ok (some b), s2)) :
    ∃ k b0, alistGet s.backends k = some b0 ∧
      b = { b0 with active_connections := b0.active_connections + 1 } ∧
      (k ∈ s.sched.keys ∨ k ∈ (healthyPairs s).map Prod.fst) := by
  by_cases he : (healthyPairs s).isEmpty = true
  · unfold selectBackend at hsel
    rw [if_pos he] at hsel
    simp at hsel
  · have hne : (healthyPairs s).isEmpty = false := by
      cases hb : (healthyPairs s).isEmpty
      · rfl
      · exact absurd hb he
    by_cases ha : s.armed = true
    · rw [selectBackend_armed hne ha] at hsel
      rcases hstep : nextStep s.sched s.backends with ⟨sr, sc⟩
      rw [hstep] at hsel
      cases sr with
      | yielded k =>
        replace hsel : finishSelect s sc k = (Except.ok (some b), s2) := hsel
        obtain ⟨b0, hg, hb0⟩ := finishSelect_ok hsel
        exact ⟨k, b0, hg, hb0, Or.inl (nextStep_yielded_mem hstep)⟩
      | failed m =>
        replace hsel : ((Except.error m : Except String (Option Backend)),
            { s with sched := sc }) = (Except.ok (some b), s2) := hsel
        simp at hsel
      | stopped =>
        rcases hstep2 : nextStep (rebuildPool s).sched (rebuildPool s).backends
          with ⟨sr2, sc2⟩
        replace hsel :
            (match nextStep (rebuildPool s).sched (rebuildPool s).backends with
              | (.yielded k, sc) => finishSelect (rebuildPool s) sc k
              | (.failed m, sc) => (.error m, { rebuildPool s with sched := sc })
              | (.stopped, _) => (.error "StopIteration", rebuildPool s)) =
            (Except.ok (some b), s2) := hsel
        rw [hstep2] at hsel
        cases sr2 with
        | yielded k =>
          replace hsel : finishSelect (rebuildPool s) sc2 k =
              (Except.ok (some b), s2) := hsel
          obtain ⟨b0, hg, hb0⟩ := finishSelect_ok hsel
          exact ⟨k, b0, hg, hb0,
            Or.inr (rebuild_keys_sub (nextStep_yielded_mem hstep2))⟩
        | failed m =>
          replace hsel : ((Except.error m : Except String (Option Backend)),
              { rebuildPool s with sched := sc2 }) = (Except.ok (some b), s2) :=
            hsel
          simp at hsel
        | stopped =>
          replace hsel :
              ((Except.error "StopIteration" : Except String (Option Backend)),
                rebuildPool s) = (Except.ok (some b), s2) := hsel
          simp at hsel
    · have ha2 : s.armed = false := by
        cases hb : s.armed
        · rfl
        · exact absurd hb ha
      rw [selectBackend_unarmed hne ha2] at hsel
      rcases hstep : nextStep (rebuildPool s).sched (rebuildPool s).backends
        with ⟨sr, sc⟩
      rw [hstep] at hsel
      cases sr with
      | yielded k =>
        replace hsel : finishSelect (rebuildPool s) sc k =
            (Except.ok (some b), s2) := hsel
        obtain ⟨b0, hg, hb0⟩ := finishSelect_ok hsel
        exact ⟨k, b0, hg, hb0,
          Or.inr (rebuild_keys_sub (nextStep_yielded_mem hstep))⟩
      | failed m =>
        replace hsel : ((Except.error m : Except String (Option Backend)),
            { rebuildPool s with sched := sc }) = (Except.ok (some b), s2) :=
          hsel
        simp at hsel
      | stopped =>
        rcases hstep2 : nextStep (rebuildPool (rebuildPool s)).sched
            (rebuildPool (rebuildPool s)).backends with ⟨sr2, sc2⟩
        replace hsel :
            (match nextStep (rebuildPool (rebuildPool s)).sched
                (rebuildPool (rebuildPool s)).backends with
              | (.yielded k, sc) =>
                finishSelect (rebuildPool (rebuildPool s)) sc k
              | (.failed m, sc) =>
                (.error m, { rebuildPool (rebuildPool s) with sched := sc })
              | (.stopped, _) =>
                (.error "StopIteration", rebuildPool (rebuildPool s))) =
            (Except.ok (some b), s2) := hsel
        rw [hstep2] at hsel
        cases sr2 with
        | yielded k =>
          replace hsel : finishSelect (rebuildPool (rebuildPool s)) sc2 k =
              (Except.ok (some b), s2) := hsel
          obtain ⟨b0, hg, hb0⟩ := finishSelect_ok hsel
          exact ⟨k, b0, hg, hb0,
            Or.inr (rebuild_keys_sub (nextStep_yielded_mem hstep2))⟩
        | failed m =>
          replace hsel : ((Except.error m : Except String (Option Backend)),
              { rebuildPool (rebuildPool s) with sched := sc2 }) =
              (Except.ok (some b), s2) := hsel
          simp at hsel
        | stopped =>
          replace hsel :
              ((Except.error "StopIteration" : Except String (Option Backend)),
                rebuildPool (rebuildPool s)) = (Except.ok (some b), s2) := hsel
          simp at hsel

/-- The counterexample pool for C2: two healthy backends were configured
into the round-robin scheduler, then a health sweep marked `b1` unhealthy;
no membership change happened, so the scheduler still holds `b1`. -/
def c2Pool : PoolState :=
  applyOps initPool [Op.add "b1" 1, Op.add "b2" 1, Op.healthSet "b1" false]

/-- C2 counterexample: the claim says `select_backend` never returns a
backend whose healthy bit was cleared by a health sweep after the last
membership change, while a healthy backend exists, because health filtering
happens inside `select_backend`.  On `c2Pool` — reachable by
`add b1; add b2; sweep marks b1 unhealthy` — `b2` is healthy, yet
`select_backend` returns `b1` with `healthy = false`: the health filter in
`select_backend` only decides the `None` case, and the pick comes from the
stale scheduler view. -/
theorem C2_counterexample :
    ("b2", ({ url := "b2" } : Backend)) ∈ c2Pool.backends ∧
      ({ url := "b2" } : Backend).healthy = true ∧
      (selectBackend c2Pool).1 =
        Except.ok (some { url := "b1", active_connections := 1,
                          healthy := false }) ∧
      ({ url := "b1", active_connections := 1,
         healthy := false } : Backend).healthy = false :=
  ⟨by decide, rfl, rfl, rfl⟩

/-- C2 as amended: `select_backend` picks from the scheduler view configured
at the last rebuild without re-checking health.  It returns a healthy
backend whenever every backend in the armed scheduler view is currently
healthy — in particular immediately after any rebuild — but after a health
sweep flips a bit of a backend still in the view, it can return an unhealthy
backend even while healthy ones exist (see the counterexample). -/
theorem C2_amended (s : PoolState) (b : Backend) (s2 : PoolState)
    (hnd : (s.backends.map Prod.fst).Nodup)
    (hsync : ∀ k ∈ s.sched.keys, ∀ b0,
      alistGet s.backends k = some b0 → b0.healthy = true)
    (hsel : selectBackend s = (Except.ok (some b), s2)) :
    b.healthy = true := by
  obtain ⟨k, b0, hg, hb, hk⟩ := selectBackend_ok_cases hsel
  have hb0 : b0.healthy = true := by
    rcases hk with hk | hk
    · exact hsync k hk b0 hg
    · exact healthyKeys_healthy hnd hk hg
  rw [hb]
  exact hb0

/-- Witness for C2's amended theorem: a fresh pool with one backend, where
the scheduler view `["a"]` is in sync with the (healthy) store. -/
theorem C2_amended_witness :
    ({ url := "a", active_connections := 1 } : Backend).healthy = true := by
  apply C2_amended (applyOps initPool [Op.add "a" 1]) _
    (selectBackend (applyOps initPool [Op.add "a" 1])).2 (by decide)
  · intro k hk b0 hg
    have hk2 : k ∈ ["a"] := hk
    simp only [List.mem_singleton] at hk2
    subst hk2
    have hg2 : (some { url := "a" } : Option Backend) = some b0 := hg
    injection hg2 with hg3
    rw [← hg3]
  · rfl

/-! ## Claim C6 -/

/-- The urls of the url-sorted entries are the sorted urls: sorting pairs by
url and then projecting equals projecting and then sorting. -/
theorem map_url_sortByUrl (l : List (String × Backend)) :
    (sortByUrl l).map (fun p => p.2.url) =
      List.insertionSort (fun a b => strLeB a b = true)
        (l.map (fun p => p.2.url)) := by
  haveI : IsTotal String (fun a b => strLeB a b = true) := ⟨strLeB_total⟩
  haveI : IsTrans String (fun a b => strLeB a b = true) :=
    ⟨fun a b c => strLeB_trans⟩
  haveI : IsAntisymm String (fun a b => strLeB a b = true) :=
    ⟨fun a b => strLeB_antisymm⟩
  haveI : IsTotal (String × Backend)
      (fun p q => strLeB p.2.url q.2.url = true) :=
    ⟨fun p q => strLeB_total p.2.url q.2.url⟩
  haveI : IsTrans (String × Backend)
      (fun p q => strLeB p.2.url q.2.url = true) :=
    ⟨fun p q r => strLeB_trans⟩
  apply List.eq_of_perm_of_sorted (r := fun a b : String => strLeB a b = true)
  · exact ((List.perm_insertionSort _ l).map _).trans
      (List.perm_insertionSort _ _).symm
  · exact List.Pairwise.map _ (fun a b h => h)
      (List.sorted_insertionSort (fun p q : String × Backend =>
        strLeB p.2.url q.2.url = true) l)
  · exact List.sorted_insertionSort _ _

/-- Sorted urls are determined by the url multiset. -/
theorem sortUrls_eq {u1 u2 : List String} (h : u1.Perm u2) :
    List.insertionSort (fun a b => strLeB a b = true) u1 =
      List.insertionSort (fun a b => strLeB a b = true) u2 := by
  haveI : IsTotal String (fun a b => strLeB a b = true) := ⟨strLeB_total⟩
  haveI : IsTrans String (fun a b => strLeB a b = true) :=
    ⟨fun a b c => strLeB_trans⟩
  haveI : IsAntisymm String (fun a b => strLeB a b = true) :=
    ⟨fun a b => strLeB_antisymm⟩
  apply List.eq_of_perm_of_sorted (r := fun a b : String => strLeB a b = true)
  · exact (List.perm_insertionSort _ _).trans
      (h.trans (List.perm_insertionSort _ _).symm)
  · exact List.sorted_insertionSort _ _
  · exact List.sorted_insertionSort _ _

/-- One `select_backend_by_ip` call on a pool with a healthy backend:
the chosen entry is the url-sorted healthy entry at index
`md5(ip) mod len`, it is returned with `active_connections` pre-incremented,
and its url is the sorted-url-list entry at that index. -/
theorem selectByIp_spec (s : PoolState) (ip : String)
    (hne : healthyPairs s ≠ []) :
    ∃ p : String × Backend,
      (sortByUrl (healthyPairs s))[md5Of ip % (healthyPairs s).length]? =
        some p ∧
      (selectByIp s ip).1 =
        some { p.2 with active_connections := p.2.active_connections + 1 } ∧
      (List.insertionSort (fun a b => strLeB a b = true)
          ((healthyPairs s).map (fun q => q.2.url)))[md5Of ip %
            (healthyPairs s).length]? = some p.2.url := by
  cases hhp : healthyPairs s with
  | nil => exact absurd hhp hne
  | cons h t =>
    have hlen : (sortByUrl (h :: t)).length = (h :: t).length :=
      (List.perm_insertionSort _ _).length_eq
    have hpos : 0 < (h :: t).length := by simp
    have hlt : md5Of ip % (h :: t).length < (sortByUrl (h :: t)).length := by
      rw [hlen]
      exact Nat.mod_lt _ hpos
    refine ⟨(sortByUrl (h :: t)).get ⟨md5Of ip % (h :: t).length, hlt⟩,
      ?_, ?_, ?_⟩
    · rw [List.getElem?_eq_getElem hlt]
      simp [List.get_eq_getElem]
    · simp only [selectByIp]
      rw [hhp]
      have hgd : (sortByUrl (h :: t)).getD
          (md5Of ip % (sortByUrl (h :: t)).length) dummyPair =
          (sortByUrl (h :: t)).get ⟨md5Of ip % (h :: t).length, hlt⟩ := by
        rw [List.getD_eq_getElem?_getD]
        have hlt2 : md5Of ip % (sortByUrl (h :: t)).length <
            (sortByUrl (h :: t)).length := by
          rw [hlen]
          exact Nat.mod_lt _ hpos
        rw [List.getElem?_eq_getElem hlt2]
        simp only [Option.getD_some, List.get_eq_getElem]
        congr 1
        rw [hlen]
      dsimp only
      rw [hgd]
    · have hmap : ((sortByUrl (h :: t)).map
          (fun p => p.2.url))[md5Of ip % (h :: t).length]? =
          some (((sortByUrl (h :: t)).get
            ⟨md5Of ip % (h :: t).length, hlt⟩).2.url) := by
        rw [List.getElem?_map, List.getElem?_eq_getElem hlt]
        simp [List.get_eq_getElem]
      rw [← map_url_sortByUrl]
      exact hmap

/-- C6: `select_backend_by_ip(ip)` returns (pre-incremented) the healthy
backend at index `int(md5(ip.encode()).hexdigest(), 16) mod n` of the
healthy backends sorted by url, and — since the index and the sorted url
list depend only on the healthy membership — two calls with the same ip on
states with the same healthy urls return backends with the same url. -/
theorem C6_select_by_ip (s1 s2 : PoolState) (ip : String)
    (hne : healthyPairs s1 ≠ [])
    (hurls : ((healthyPairs s1).map (fun q => q.2.url)).Perm
      ((healthyPairs s2).map (fun q => q.2.url))) :
    ∃ p1 p2 : String × Backend,
      (sortByUrl (healthyPairs s1))[md5Of ip % (healthyPairs s1).length]? =
        some p1 ∧
      (sortByUrl (healthyPairs s2))[md5Of ip % (healthyPairs s2).length]? =
        some p2 ∧
      (selectByIp s1 ip).1 =
        some { p1.2 with active_connections := p1.2.active_connections + 1 } ∧
      (selectByIp s2 ip).1 =
        some { p2.2 with active_connections := p2.2.active_connections + 1 } ∧
      p1.2.url = p2.2.url := by
  have hlen12 : (healthyPairs s1).length = (healthyPairs s2).length := by
    have := hurls.length_eq
    simpa using this
  have hne2 : healthyPairs s2 ≠ [] := by
    intro hcon
    rw [hcon] at hlen12
    simp only [List.length_nil] at hlen12
    exact hne (List.length_eq_zero.mp hlen12)
  obtain ⟨p1, h1a, h1b, h1c⟩ := selectByIp_spec s1 ip hne
  obtain ⟨p2, h2a, h2b, h2c⟩ := selectByIp_spec s2 ip hne2
  refine ⟨p1, p2, h1a, h2a, h1b, h2b, ?_⟩
  rw [sortUrls_eq hurls, hlen12] at h1c
  have heq := h1c.symm.trans h2c
  injection heq

/-- The witness pool for C6: two healthy backends `a` and `b`. -/
def c6Pool : PoolState := applyOps initPool [Op.add "a" 1, Op.add "b" 1]

set_option maxRecDepth 1000000 in
/-- Witness for C6 at a concrete pool and ip (both calls on the same
healthy membership); the selected backend evaluates concretely. -/
theorem C6_select_by_ip_witness :
    (selectByIp c6Pool "10.0.0.1").1 =
      some { url := "a", active_connections := 1 } := by
  obtain ⟨p1, p2, h1, h2, h3, h4, h5⟩ :=
    C6_select_by_ip c6Pool c6Pool "10.0.0.1" (by decide) (List.Perm.refl _)
  have hco : some { p1.2 with
      active_connections := p1.2.active_connections + 1 } =
      (some { url := "a", active_connections := 1 } : Option Backend) :=
    h3.symm.trans rfl
  exact h3.trans hco

/-! ## Claim C7 -/

/-- `release` never changes `weight` (whether or not it raises). -/
theorem releaseBackend_weight (b : Backend) :
    ((releaseBackend b).2).weight = b.weight := by
  unfold releaseBackend
  cases b.total_requests <;> rfl

theorem finishSelect_backends (s : PoolState) (sc : Sched) (k : String) :
    (finishSelect s sc k).2.backends = s.backends ∨
      ∃ b0, alistGet s.backends k = some b0 ∧
        (finishSelect s sc k).2.backends =
          alistSet s.backends k
            { b0 with active_connections := b0.active_connections + 1 } := by
  cases hg : alistGet s.backends k with
  | none =>
    left
    unfold finishSelect
    rw [hg]
  | some b0 =>
    right
    refine ⟨b0, rfl, ?_⟩
    unfold finishSelect
    rw [hg]

/-- The `backends` dict after `select_backend`: unchanged, or one stored
object replaced by itself with `active_connections` incremented. -/
theorem selectBackend_state_backends (s : PoolState) :
    (selectBackend s).2.backends = s.backends ∨
      ∃ k b0, alistGet s.backends k = some b0 ∧
        (selectBackend s).2.backends =
          alistSet s.backends k
            { b0 with active_connections := b0.active_connections + 1 } := by
  by_cases he : (healthyPairs s).isEmpty = true
  · left
    unfold selectBackend
    rw [if_pos he]
  · have hne : (healthyPairs s).isEmpty = false := by
      cases hb : (healthyPairs s).isEmpty
      · rfl
      · exact absurd hb he
    by_cases ha : s.armed = true
    · rw [selectBackend_armed hne ha]
      rcases hstep : nextStep s.sched s.backends with ⟨sr, sc⟩
      cases sr with
      | yielded k =>
        rcases finishSelect_backends s sc k with h | ⟨b0, hg, h⟩
        · left
          exact h
        · right
          exact ⟨k, b0, hg, h⟩
      | failed m => left; rfl
      | stopped =>
        show (match nextStep (rebuildPool s).sched (rebuildPool s).backends with
            | (.yielded k, sc) => finishSelect (rebuildPool s) sc k
            | (.failed m, sc) => (.error m, { rebuildPool s with sched := sc })
            | (.stopped, _) =>
              (.error "StopIteration", rebuildPool s)).2.backends =
            s.backends ∨ _
        rcases hstep2 : nextStep (rebuildPool s).sched (rebuildPool s).backends
          with ⟨sr2, sc2⟩
        cases sr2 with
        | yielded k =>
          rcases finishSelect_backends (rebuildPool s) sc2 k with h | ⟨b0, hg, h⟩
          · left
            exact h
          · right
            exact ⟨k, b0, hg, h⟩
        | failed m => left; rfl
        | stopped => left; rfl
    · have ha2 : s.armed = false := by
        cases hb : s.armed
        · rfl
        · exact absurd hb ha
      rw [selectBackend_unarmed hne ha2]
      rcases hstep : nextStep (rebuildPool s).sched (rebuildPool s).backends
        with ⟨sr, sc⟩
      cases sr with
      | yielded k =>
        rcases finishSelect_backends (rebuildPool s) sc k with h | ⟨b0, hg, h⟩
        · left
          exact h
        · right
          exact ⟨k, b0, hg, h⟩
      | failed m => left; rfl
      | stopped =>
        show (match nextStep (rebuildPool (rebuildPool s)).sched
              (rebuildPool (rebuildPool s)).backends with
            | (.yielded k, sc) =>
              finishSelect (rebuildPool (rebuildPool s)) sc k
            | (.failed m, sc) =>
              (.error m, { rebuildPool (rebuildPool s) with sched := sc })
            | (.stopped, _) =>
              (.error "StopIteration",
                rebuildPool (rebuildPool s))).2.backends =
            s.backends ∨ _
        rcases hstep2 : nextStep (rebuildPool (rebuildPool s)).sched
            (rebuildPool (rebuildPool s)).backends with ⟨sr2, sc2⟩
        cases sr2 with
        | yielded k =>
          rcases finishSelect_backends (rebuildPool (rebuildPool s)) sc2 k
            with h | ⟨b0, hg, h⟩
          · left
            exact h
          · right
            exact ⟨k, b0, hg, h⟩
        | failed m => left; rfl
        | stopped => left; rfl

/-- The `backends` dict after `select_backend_by_ip`: unchanged, or one
stored entry replaced by itself with `active_connections` incremented. -/
theorem selectByIp_state_backends (s : PoolState) (ip : String) :
    (selectByIp s ip).2.backends = s.backends ∨
      ∃ p : String × Backend, p ∈ s.backends ∧
        (selectByIp s ip).2.backends = alistSet s.backends p.1
          { p.2 with active_connections := p.2.active_connections + 1 } := by
  cases hhp : healthyPairs s with
  | nil =>
    left
    simp only [selectByIp]
    rw [hhp]
  | cons h t =>
    right
    have hlen : (sortByUrl (h :: t)).length = (h :: t).length :=
      (List.perm_insertionSort _ _).length_eq
    have hlt2 : md5Of ip % (sortByUrl (h :: t)).length <
        (sortByUrl (h :: t)).length := by
      rw [hlen]
      exact Nat.mod_lt _ (by simp)
    set p := (sortByUrl (h :: t)).getD
      (md5Of ip % (sortByUrl (h :: t)).length) dummyPair with hpdef
    have hpmem : p ∈ sortByUrl (h :: t) := by
      rw [hpdef, List.getD_eq_getElem?_getD, List.getElem?_eq_getElem hlt2,
        Option.getD_some]
      exact List.getElem_mem _
    have hpb : p ∈ s.backends := by
      have h1 : p ∈ h :: t := (List.perm_insertionSort _ _).mem_iff.mp hpmem
      rw [← hhp] at h1
      exact (List.mem_filter.mp h1).1
    refine ⟨p, hpb, ?_⟩
    simp only [selectByIp]
    rw [hhp]

/-- One pool operation preserves "every stored backend has weight ≥ 1",
provided an `add` in it passes weight ≥ 1. -/
theorem applyOp_weights {s : PoolState} {op : Op}
    (hs : ∀ p ∈ s.backends, 1 ≤ p.2.weight)
    (hadd : ∀ u w, op = Op.add u w → 1 ≤ w) :
    ∀ p ∈ (applyOp s op).backends, 1 ≤ p.2.weight := by
  cases op with
  | add u w =>
    intro p hp
    have hw := hadd u w rfl
    have hp2 : p ∈ alistSet s.backends u { url := u, weight := w } := hp
    rcases mem_alistSet hp2 with h | h
    · rw [h]
      exact hw
    · exact hs p h
  | remove u =>
    intro p hp
    exact hs p (mem_alistRemove hp)
  | setScheduler algo =>
    intro p hp
    replace hp : p ∈ (setSched algo s).2.backends := hp
    have hb : (setSched algo s).2.backends = s.backends := by
      unfold setSched
      split <;> rfl
    rw [hb] at hp
    exact hs p hp
  | select =>
    intro p hp
    replace hp : p ∈ (selectBackend s).2.backends := hp
    rcases selectBackend_state_backends s with h | ⟨k, b0, hg, h⟩
    · rw [h] at hp
      exact hs p hp
    · rw [h] at hp
      rcases mem_alistSet hp with h2 | h2
      · have hb0w := hs (k, b0) (alistGet_mem hg)
        rw [h2]
        exact hb0w
      · exact hs p h2
  | selectIp ip =>
    intro p hp
    replace hp : p ∈ (selectByIp s ip).2.backends := hp
    rcases selectByIp_state_backends s ip with h | ⟨q, hq, h⟩
    · rw [h] at hp
      exact hs p hp
    · rw [h] at hp
      rcases mem_alistSet hp with h2 | h2
      · rw [h2]
        exact hs q hq
      · exact hs p h2
  | release u =>
    intro p hp
    replace hp : p ∈ alistUpdate s.backends u
      (fun b => (releaseBackend b).2) := hp
    rcases mem_alistUpdate hp with h | ⟨q, hq, h⟩
    · exact hs p h
    · rw [h]
      show 1 ≤ ((releaseBackend q.2).2).weight
      rw [releaseBackend_weight]
      exact hs q hq
  | healthSet u hb =>
    intro p hp
    replace hp : p ∈ alistUpdate s.backends u
      (fun b => { b with healthy := hb }) := hp
    rcases mem_alistUpdate hp with h | ⟨q, hq, h⟩
    · exact hs p h
    · rw [h]
      exact hs q hq

/-- C7 counterexample: the claim says every admitted backend satisfies
`weight ≥ 1` for any integer weight passed to `add`.  But `add` performs no
validation: `add("b", weight=0)` stores a backend with `weight = 0`. -/
theorem C7_counterexample :
    alistGet (applyOps initPool [Op.add "b" 0]).backends "b" =
        some { url := "b", weight := 0 } ∧
      ¬ (1 : Int) ≤ ({ url := "b", weight := 0 } : Backend).weight :=
  ⟨rfl, by decide⟩

/-- C7 as amended: `add` stores the given weight unvalidated, so the
`weight ≥ 1` invariant holds exactly when every `add` in the operation
sequence passes `weight ≥ 1`; under that precondition every backend in the
pool satisfies `weight ≥ 1` after any sequence of add, remove,
set-scheduler, select, select-by-ip, release and health-check operations. -/
theorem C7_amended (ops : List Op)
    (hadd : ∀ op ∈ ops, ∀ u w, op = Op.add u w → 1 ≤ w) :
    ∀ p ∈ (applyOps initPool ops).backends, 1 ≤ p.2.weight := by
  suffices hgen : ∀ (l : List Op) (s : PoolState),
      (∀ p ∈ s.backends, 1 ≤ p.2.weight) →
      (∀ op ∈ l, ∀ u w, op = Op.add u w → 1 ≤ w) →
      ∀ p ∈ (applyOps s l).backends, 1 ≤ p.2.weight by
    exact hgen ops initPool (by simp [initPool]) hadd
  intro l
  induction l with
  | nil =>
    intro s hs _ p hp
    exact hs p hp
  | cons op rest ih =>
    intro s hs hadd2 p hp
    exact ih (applyOp s op)
      (applyOp_weights hs (fun u w he => hadd2 op (List.mem_cons_self op rest) u w he))
      (fun o ho u w he => hadd2 o (List.mem_cons_of_mem op ho) u w he) p hp

/-- Witness for C7's amended theorem: one `add` with weight 1. -/
theorem C7_amended_witness :
    (1 : Int) ≤ ({ url := "b", weight := 1 } : Backend).weight := by
  have h := C7_amended [Op.add "b" 1]
    (by
      intro op hop u w he
      simp only [List.mem_singleton] at hop
      subst hop
      injection he with h1 h2
      omega)
  exact h ("b", { url := "b", weight := 1 }) (by decide)

end MiniLb
